import Mathlib

/-!
# ecm-distro-tools: hardened ingress-nginx fork synchronisation

A shallow embedding of `cmd/hardened_nginx_release/rebase.go` and
`release/rgit/rgit.go`.

* Go `string` values are Lean `String`s (sequences of runes).
* A Go `error` value is a `GoError`: the package sentinel
  `rgit.ErrRemotebranchNotFound`, or any other error value, known by its text.
* A Go run-time panic (indexing outside a slice, nil dereference) is the
  `Except.error` side of `Except Panic _`.
* External processes started by `exec.Command` and the go-git storer are an
  oracle `Exec σ` over an abstract world state `σ`; every call of
  `RunCommandInDir` is appended to a trace.
-/

namespace HardenedNginx

/-! ## Errors and panics -/

/-- Go `error` values met in the two packages. -/
inductive GoError where
  /-- the sentinel `rgit.ErrRemotebranchNotFound = errors.New("remote branch not found")` -/
  | ErrRemotebranchNotFound
  /-- any other error value (`fmt.Errorf`, library errors), with its text -/
  | text (msg : String)
  deriving DecidableEq, Repr

/-- The method `err.Error()`. -/
def GoError.Error : GoError → String
  | .ErrRemotebranchNotFound => "remote branch not found"
  | .text msg => msg

/-- Go run-time panics. -/
inductive Panic where
  /-- `index out of range [idx] with length len` -/
  | indexOutOfRange (idx len : Nat)
  /-- `invalid memory address or nil pointer dereference` -/
  | nilDereference
  deriving DecidableEq, Repr

deriving instance DecidableEq for Except

/-- Slice indexing `xs[i]`, which panics outside the bounds. -/
def index {α : Type} (xs : List α) (i : Nat) : Except Panic α :=
  match xs.get? i with
  | some x => .ok x
  | none => .error (.indexOutOfRange i xs.length)

/-! ## `strings.Contains` -/

/-- The test `strings.Contains(s, substr)` on rune sequences: some suffix of `s`
starts with `substr`. -/
def containsChars : List Char → List Char → Bool
  | [], sub => sub.isEmpty
  | c :: cs, sub => sub.isPrefixOf (c :: cs) || containsChars cs sub

/-- Go `strings.Contains`. -/
def Contains (s substr : String) : Bool :=
  containsChars s.data substr.data

/-! ## The regular expression `v(\d+).(\d+).\d+`

Go's `regexp` returns the leftmost match and, among the matches starting
there, the one a backtracking search finds first; `\d` is an ASCII digit, `.`
is any character but a newline, `+` is greedy. -/

/-- The greedy `\d+` followed by the rest of the pattern `k`: the longest run
of digits is tried first, then shorter ones, down to one digit. `k` receives
the digits taken and the remaining input. -/
def digitPlus {α : Type} : List Char → (List Char → List Char → Option α) → Option α
  | [], _ => none
  | c :: cs, k =>
    if c.isDigit then
      match digitPlus cs (fun m r => k (c :: m) r) with
      | some a => some a
      | none => k [c] cs
    else none

/-- The `.` of the pattern followed by the rest of the pattern `k`. -/
def anyChar {α : Type} : List Char → (Char → List Char → Option α) → Option α
  | [], _ => none
  | c :: cs, k => if c = '\n' then none else k c cs

/-- The pattern `v(\d+).(\d+).\d+` matched at the start of the input: the
submatches `[whole match, group 1, group 2]`. -/
def matchHere : List Char → Option (List String)
  | 'v' :: s1 =>
    digitPlus s1 fun major s2 =>
    anyChar s2 fun c s3 =>
    digitPlus s3 fun minor s4 =>
    anyChar s4 fun d s5 =>
    digitPlus s5 fun patch _ =>
    some [String.mk ('v' :: major ++ c :: minor ++ d :: patch), String.mk major, String.mk minor]
  | _ => none

/-- The leftmost match: the first start position at which the pattern matches;
`[]` (a nil slice) when there is none. -/
def findSubmatch : List Char → List String
  | [] => []
  | c :: cs =>
    match matchHere (c :: cs) with
    | some groups => groups
    | none => findSubmatch cs

/-- The call `regexp.MustCompile("v(\\d+).(\\d+).\\d+").FindStringSubmatch(tag)`. -/
def FindStringSubmatch (tag : String) : List String :=
  findSubmatch tag.data

/-! ## `strconv.Atoi` and `%d` -/

/-- The value of a string of decimal digits, accumulated as `n*10 + digit`. -/
def decimalValue (ds : List Char) : Nat :=
  ds.foldl (fun n ch => n * 10 + (ch.toNat - '0'.toNat)) 0

/-- Go `strconv.Atoi` for the 64-bit `int`: an optional sign, then one or more
decimal digits, within `[-2^63, 2^63 - 1]`. -/
def Atoi (s : String) : Except GoError Int :=
  let syntaxErr : GoError := .text ("strconv.Atoi: parsing " ++ s.quote ++ ": invalid syntax")
  let rangeErr : GoError := .text ("strconv.Atoi: parsing " ++ s.quote ++ ": value out of range")
  match s.data with
  | [] => .error syntaxErr
  | c :: rest =>
    let neg := c == '-'
    let ds := if c = '-' ∨ c = '+' then rest else c :: rest
    if ds.isEmpty || !ds.all Char.isDigit then .error syntaxErr
    else
      let un := decimalValue ds
      if !neg && un ≥ 2 ^ 63 then .error rangeErr
      else if neg && un > 2 ^ 63 then .error rangeErr
      else .ok (if neg then -(un : Int) else (un : Int))

/-- The verb `%d` of `fmt.Sprintf` on an `int`. -/
def formatInt : Int → String
  | .ofNat n => Nat.repr n
  | .negSucc n => "-" ++ Nat.repr (n + 1)

/-! ## Tag and branch naming (`rebase.go`) -/

/-- Go `getHardenedBranch`. -/
def getHardenedBranch (tag : String) : Except Panic String := do
  let groups := FindStringSubmatch tag
  let version ← index groups 0
  let major ← index groups 1
  let minor ← index groups 2
  if version = "" then
    return ""
  return "hardened-nginx-" ++ major ++ "." ++ minor ++ ".x-fix"

/-- Go `getLastHardenedBranch`. -/
def getLastHardenedBranch (tag : String) : Except Panic String := do
  let groups := FindStringSubmatch tag
  let major ← index groups 1
  let minor ← index groups 2
  match Atoi minor with
  | .error _ => return ""
  | .ok minorInt => return "hardened-nginx-" ++ major ++ "." ++ formatInt (minorInt - 1) ++ ".x-fix"

/-! ## The patch series (`rebase.go`) -/

/-- Go `nginxDir`. -/
def nginxDir : String := "ingress-nginx"

/-- Go `CommitModification`. -/
structure CommitModification where
  Message : String := ""
  Action : String := ""
  Files : List String := []
  deriving DecidableEq, Repr

/-- Go `hardenedCommits`: the last hardened commit messages, oldest first. -/
def hardenedCommits : List CommitModification :=
  [ ⟨"Adding drone and build artifacts", "remove",
      [".github/workflows/ci.yaml", ".github/workflows/depreview.yaml"]⟩,
    ⟨"Skip or Fix Flaky Unint and E2E Tests", "add", ["test/e2e/settings/opentelemetry.go"]⟩,
    ⟨"Hardened Nginx and S390x changes", "remove", ["images/nginx/rootfs/Dockerfile"]⟩,
    ⟨"Use BCI base image", "add", ["Dockerfile.dapper"]⟩,
    ⟨"add arm64 support", "remove", ["cmd/plugin/commands/ingresses/ingresses_test.go"]⟩,
    ⟨"Disable s390x Drone pipeline", "", []⟩,
    ⟨"Downgrade nginx to 1.21.4 for pcre compatability", "", []⟩,
    ⟨"Drop back to older brotli version", "", []⟩,
    ⟨"Rancher go.work.sum changes", "", []⟩,
    ⟨"Rancher go.work.sum changes", "", []⟩ ]

/-- Go `findHardenedCommit`: the range loop returns at the first entry whose
message the text contains, and the zero value after the loop. -/
def findHardenedCommit (commit : String) : List CommitModification → CommitModification
  | [] => {}
  | c :: commits =>
    if Contains commit c.Message then c else findHardenedCommit commit commits

/-! ## The command runner (`rgit.go`) -/

/-- What `command.Run()` leaves behind: whether it returned an error, and the
two captured buffers. -/
structure ProcResult where
  failed : Bool
  stdout : String
  stderr : String
  deriving DecidableEq, Repr

/-- The world outside the program: external processes (started in `dir` as
`cmd args...`, with `GIT_EDITOR=true`) and the reference storer of go-git. -/
structure Exec (σ : Type) where
  run : σ → String → String → List String → ProcResult × σ
  removeReference : σ → String → Option GoError × σ

/-- One call of `RunCommandInDir` with what it returned. -/
structure Call where
  dir : String
  cmd : String
  args : List String
  out : String
  err : Option GoError
  deriving DecidableEq, Repr

/-- The world state together with the calls of `RunCommandInDir` so far. -/
structure Sys (σ : Type) where
  world : σ
  trace : List Call

/-- Go `strings.Join`. -/
def Join (elems : List String) (sep : String) : String :=
  sep.intercalate elems

/-- Go `rgit.RunCommandInDir`: standard output on success; on failure the empty
string and an error whose text embeds the standard error output. -/
def RunCommandInDir {σ : Type} (E : Exec σ) (dir cmd : String) (args : List String)
    (s : Sys σ) : (String × Option GoError) × Sys σ :=
  let r := E.run s.world dir cmd args
  let res : String × Option GoError :=
    if r.1.failed then
      ("", some (.text ("failed to run " ++ (cmd ++ Join args " ") ++ ": " ++ r.1.stderr)))
    else (r.1.stdout, none)
  (res, ⟨r.2, s.trace ++ [⟨dir, cmd, args, res.1, res.2⟩]⟩)

/-- Go `rgit.CleanRepo`. -/
def CleanRepo {σ : Type} (E : Exec σ) (dir : String) (s : Sys σ) : Option GoError × Sys σ :=
  let r1 := RunCommandInDir E dir "git" ["clean", "-xfd"] s
  match r1.1.2 with
  | some err => (some err, r1.2)
  | none =>
    let r2 := RunCommandInDir E dir "git" ["checkout", "."] r1.2
    match r2.1.2 with
    | some err => (some err, r2.2)
    | none => (none, r2.2)

/-- Go `rgit.CreateNewBranchFromTag`. -/
def CreateNewBranchFromTag {σ : Type} (E : Exec σ) (dir newBranchName tag : String)
    (s : Sys σ) : Option GoError × Sys σ :=
  let r := RunCommandInDir E dir "git" ["checkout", "-b", newBranchName, tag] s
  (r.1.2, r.2)

/-- Go `rgit.CheckoutRemoteBranch`. -/
def CheckoutRemoteBranch {σ : Type} (E : Exec σ) (dir remote branchName : String)
    (s : Sys σ) : Option GoError × Sys σ :=
  let remoteRef := remote ++ "/" ++ branchName
  let r := RunCommandInDir E dir "git" ["checkout", "--track", remoteRef] s
  match r.1.2 with
  | some err =>
    let errCatch := "fatal: '" ++ remoteRef ++ "' is not a commit and a branch '" ++ branchName
      ++ "' cannot be created from it\n"
    if Contains err.Error errCatch then (some .ErrRemotebranchNotFound, r.2)
    else (some err, r.2)
  | none => (none, r.2)

/-- Go `rgit.RemoveFiles`. -/
def RemoveFiles {σ : Type} (E : Exec σ) (dir : String) :
    List String → Sys σ → Option GoError × Sys σ
  | [], s => (none, s)
  | file :: files, s =>
    let r := RunCommandInDir E dir "git" ["rm", file] s
    match r.1.2 with
    | some err => (some err, r.2)
    | none => RemoveFiles E dir files r.2

/-- Go `rgit.AddFiles`. -/
def AddFiles {σ : Type} (E : Exec σ) (dir : String) :
    List String → Sys σ → Option GoError × Sys σ
  | [], s => (none, s)
  | file :: files, s =>
    let r := RunCommandInDir E dir "git" ["add", file] s
    match r.1.2 with
    | some err => (some err, r.2)
    | none => AddFiles E dir files r.2

/-- Go `rgit.ActOnFiles`. -/
def ActOnFiles {σ : Type} (E : Exec σ) (dir action : String) (files : List String)
    (s : Sys σ) : Option GoError × Sys σ :=
  if action = "add" then AddFiles E dir files s
  else if action = "remove" then RemoveFiles E dir files s
  else (none, s)

/-! ## Latest tag (`rgit.go`) -/

/-- The part of `object.Commit` that is read: `Committer.When`, as an instant. -/
structure Commit where
  When : Int
  deriving DecidableEq, Repr

/-- A tag reference of the repository: its full reference name, and what
`repo.ResolveRevision` followed by `repo.CommitObject` gives for it. -/
structure TagRef where
  Name : String
  commit : Except GoError Commit

/-- The callback of `tagRefs.ForEach` run over the tags in iteration order,
on the two captured variables `latestTagCommit` and `latestTag`. -/
def forEachTag (filter : String) :
    List TagRef → Option Commit × Option TagRef →
      Except Panic (Option GoError × (Option Commit × Option TagRef))
  | [], st => .ok (none, st)
  | tagRef :: rest, st =>
    let tagName := tagRef.Name
    match tagRef.commit with
    | .error err => .ok (some err, st)
    | .ok commit =>
      let st1 : Option Commit × Option TagRef :=
        if Contains tagName filter && st.1.isNone then (some commit, some tagRef) else st
      if Contains tagName filter then
        match st1.1 with
        | none => .error .nilDereference
        | some latestTagCommit =>
          if commit.When > latestTagCommit.When then
            forEachTag filter rest (some commit, some tagRef)
          else forEachTag filter rest st1
      else forEachTag filter rest st1

/-- Go `rgit.GetLatestTagFromRepo`. `tags` is what `repo.Tags()` gives, and
`Short` is the method `ReferenceName.Short` of go-git. -/
def GetLatestTagFromRepo (tags : Except GoError (List TagRef)) (Short : String → String)
    (filter : String) : Except Panic (String × Option GoError) :=
  match tags with
  | .error err => .ok ("", some err)
  | .ok tagRefs =>
    match forEachTag filter tagRefs (none, none) with
    | .error p => .error p
    | .ok (some err, _) => .ok ("", some err)
    | .ok (none, (_, latestTag)) =>
      match latestTag with
      | none => .error .nilDereference
      | some t => .ok (Short t.Name, none)

/-! ## Branch resolution, rebase and cherry-pick (`rebase.go`) -/

/-- Go `switchToHardenedBranch`. -/
def switchToHardenedBranch {σ : Type} (E : Exec σ) (user tag previous : String)
    (s : Sys σ) : Except Panic (String × Option GoError) × Sys σ :=
  let s1 := (CleanRepo E nginxDir s).2
  match getHardenedBranch tag with
  | .error p => (.error p, s1)
  | .ok branchName =>
    let ref := "refs/heads/" ++ branchName
    let rm := E.removeReference s1.world ref
    let s2 : Sys σ := ⟨rm.2, s1.trace⟩
    match rm.1 with
    | some err => (.ok ("", some err), s2)
    | none =>
      let c1 := CheckoutRemoteBranch E nginxDir user branchName s2
      match c1.1 with
      | some err =>
        if err ≠ .ErrRemotebranchNotFound then (.ok ("", some err), c1.2)
        else
          let latest : Except Panic String :=
            if previous ≠ "" then .ok previous else getLastHardenedBranch tag
          match latest with
          | .error p => (.error p, c1.2)
          | .ok latestHardenedBranch =>
            let c2 := CheckoutRemoteBranch E nginxDir user latestHardenedBranch c1.2
            match c2.1 with
            | some err2 =>
              (.ok ("", some (.text ("unable to find " ++ latestHardenedBranch ++ ": "
                ++ err2.Error))), c2.2)
            | none => (.ok (branchName, none), c2.2)
      | none => (.ok ("", none), c1.2)

/-- Go `rebaseUpstream`. The closing log line evaluates `getHardenedBranch(tag)`. -/
def rebaseUpstream {σ : Type} (E : Exec σ) (tag : String) (s : Sys σ) :
    Except Panic (Option GoError) × Sys σ :=
  let r1 := RunCommandInDir E nginxDir "git"
    ["rebase", "--onto", tag, "-Xtheirs", "HEAD~" ++ formatInt hardenedCommits.length] s
  let step1 : Option GoError × Sys σ :=
    match r1.1.2 with
    | some err =>
      if Contains err.Error hardenedCommits[0].Message then
        RemoveFiles E nginxDir [".github/workflows/ci.yaml", ".github/workflows/depreview.yaml"]
          r1.2
      else (some err, r1.2)
    | none => (none, r1.2)
  match step1.1 with
  | some err => (.ok (some err), step1.2)
  | none =>
    let r2 := RunCommandInDir E nginxDir "git" ["rebase", "--continue"] step1.2
    let step2 : Option GoError × Sys σ :=
      match r2.1.2 with
      | some err =>
        if Contains err.Error hardenedCommits[2].Message then
          RemoveFiles E nginxDir ["images/nginx/rootfs/Dockerfile"] r2.2
        else (some err, r2.2)
      | none => (none, r2.2)
    match step2.1 with
    | some err => (.ok (some err), step2.2)
    | none =>
      let r3 := RunCommandInDir E nginxDir "git" ["rebase", "--continue"] step2.2
      match r3.1.2 with
      | some err2 => (.ok (some err2), r3.2)
      | none =>
        match getHardenedBranch tag with
        | .error p => (.error p, r3.2)
        | .ok _ => (.ok none, r3.2)

/-- The loop of `cherryPickHardened`: `cherryPickLoop E tag n` runs the
iterations `i = n-1, n-2, ..., 0`. -/
def cherryPickLoop {σ : Type} (E : Exec σ) (tag : String) :
    Nat → Sys σ → Option GoError × Sys σ
  | 0, s => (none, s)
  | i + 1, s =>
    let commit := tag ++ "~" ++ formatInt i
    let r := RunCommandInDir E nginxDir "git" ["cherry-pick", "-Xtheirs", commit] s
    match r.1.2 with
    | some err =>
      let hardenedCommit := findHardenedCommit err.Error hardenedCommits
      if hardenedCommit.Message ≠ "" then
        let a := ActOnFiles E nginxDir hardenedCommit.Action hardenedCommit.Files r.2
        match a.1 with
        | some err2 => (some err2, a.2)
        | none =>
          let c := RunCommandInDir E nginxDir "git" ["cherry-pick", "--continue"] a.2
          match c.1.2 with
          | some err3 =>
            (some (.text ("unable to cherry-pick: " ++ c.1.1 ++ ": " ++ err3.Error)), c.2)
          | none => cherryPickLoop E tag i c.2
      else (some err, r.2)
    | none => cherryPickLoop E tag i r.2

/-- Go `cherryPickHardened`. -/
def cherryPickHardened {σ : Type} (E : Exec σ) (tag : String) (s : Sys σ) :
    Option GoError × Sys σ :=
  cherryPickLoop E tag hardenedCommits.length s

/-! ## Sample worlds -/

/-- A world without state in which the outcome of a process depends on its
command line only, and removing a reference always succeeds. -/
def scriptExec (f : String → List String → ProcResult) : Exec Unit :=
  ⟨fun w _ cmd args => (f cmd args, w), fun w _ => (none, w)⟩

/-- Every process succeeds silently. -/
def allSucceed : String → List String → ProcResult :=
  fun _ _ => ⟨false, "", ""⟩

/-- Every process fails, writing `stderr` to its standard error. -/
def allFail (stderr : String) : String → List String → ProcResult :=
  fun _ _ => ⟨true, "", stderr⟩

/-- The checkout of `user/branch` fails because the remote branch does not
exist; every other process succeeds silently. -/
def missingBranch (user branch : String) : String → List String → ProcResult :=
  fun _ args =>
    if args = ["checkout", "--track", user ++ "/" ++ branch] then
      ⟨true, "", "fatal: '" ++ user ++ "/" ++ branch ++ "' is not a commit and a branch '"
        ++ branch ++ "' cannot be created from it\n"⟩
    else ⟨false, "", ""⟩

/-- The rebase stops on the first patch of the series; every other process
succeeds silently. -/
def firstPatchConflict : String → List String → ProcResult :=
  fun _ args =>
    if args.head? = some "rebase" ∧ args ≠ ["rebase", "--continue"] then
      ⟨true, "", "error: could not apply 1a2b3c4... Adding drone and build artifacts"⟩
    else ⟨false, "", ""⟩

/-- Three tags in iteration order; the chart tag carries the newest commit. -/
def sampleTags : List TagRef :=
  [ ⟨"refs/tags/controller-v1.9.1", .ok ⟨100⟩⟩,
    ⟨"refs/tags/helm-chart-4.8.0", .ok ⟨300⟩⟩,
    ⟨"refs/tags/controller-v1.9.3", .ok ⟨200⟩⟩ ]

/-- The short name of a tag reference: the name without `refs/tags/`. -/
def sampleShort (name : String) : String :=
  name.drop 10

/-! ## Specification vocabulary -/

/-- A non-empty string of decimal digits. -/
def IsDigits (s : String) : Bool :=
  !s.data.isEmpty && s.data.all Char.isDigit

/-- The shape `vX.Y.Z...` of a well-formed tag: `v`, three non-empty digit
strings separated by literal dots, then any suffix. -/
def WellFormedTag (tag : String) : Prop :=
  ∃ X Y Z S : String, IsDigits X = true ∧ IsDigits Y = true ∧ IsDigits Z = true ∧
    tag = "v" ++ X ++ "." ++ Y ++ "." ++ Z ++ S

/-- The input starts with `v` directly followed by a decimal digit. -/
def startsVersion : List Char → Bool
  | c :: d :: _ => c == 'v' && d.isDigit
  | _ => false

/-- Nowhere in the text is a `v` directly followed by a decimal digit. -/
def noVersionStart : List Char → Bool
  | [] => true
  | c :: cs => !startsVersion (c :: cs) && noVersionStart cs

/-- The string `sub` occurs in `s` as a contiguous run of characters. -/
def IsSubstring (sub s : String) : Prop :=
  sub.data <:+: s.data

instance (sub s : String) : Decidable (IsSubstring sub s) := by
  unfold IsSubstring; infer_instance

/-- Entry `c` stands at index `i` of the series `cs`, its message occurs in
the text `t`, and no entry of lower index has a message occurring in `t`. -/
def FirstMatch (t : String) (cs : List CommitModification) (i : Nat)
    (c : CommitModification) : Prop :=
  cs[i]? = some c ∧ IsSubstring c.Message t ∧
    ∀ (j : Nat) (c' : CommitModification), j < i → cs[j]? = some c' → ¬ IsSubstring c'.Message t

/-- The command line of a call: the program followed by its arguments. -/
def Call.argv (c : Call) : List String :=
  c.cmd :: c.args

/-- The call is one of the picks of the replay, `git cherry-pick -Xtheirs <commit>`. -/
def IsPick (c : Call) : Prop :=
  c.cmd = "git" ∧ ∃ commit : String, c.args = ["cherry-pick", "-Xtheirs", commit]

/-- The text of the error contains none of the patch-series messages. -/
def Unmatched (e : GoError) : Prop :=
  ∀ m ∈ hardenedCommits, ¬ IsSubstring m.Message e.Error

/-- Along the calls, a pick that failed with an unmatched error is the last
call and its error is the result `res`. -/
def UnmatchedPickIsLast (res : Option GoError) : List Call → Prop
  | [] => True
  | c :: rest =>
    (IsPick c → ∀ e, c.err = some e → Unmatched e → rest = [] ∧ res = some e) ∧
      UnmatchedPickIsLast res rest

/-- The trace record of the call `RunCommandInDir dir cmd args` made in state `s`. -/
def callOf {σ : Type} (E : Exec σ) (dir cmd : String) (args : List String) (s : Sys σ) : Call :=
  ⟨dir, cmd, args, (RunCommandInDir E dir cmd args s).1.1, (RunCommandInDir E dir cmd args s).1.2⟩

/-- The part of `rebaseUpstream` after the first conflict handling: the
first `git rebase --continue`, its conflict handling, the second
`git rebase --continue` and the closing log line. -/
def rebaseRest {σ : Type} (E : Exec σ) (tag : String) (s1 : Sys σ) :
    Except Panic (Option GoError) × Sys σ :=
  let r2 := RunCommandInDir E nginxDir "git" ["rebase", "--continue"] s1
  let step2 : Option GoError × Sys σ :=
    match r2.1.2 with
    | some err =>
      if Contains err.Error hardenedCommits[2].Message then
        RemoveFiles E nginxDir ["images/nginx/rootfs/Dockerfile"] r2.2
      else (some err, r2.2)
    | none => (none, r2.2)
  match step2.1 with
  | some err => (.ok (some err), step2.2)
  | none =>
    let r3 := RunCommandInDir E nginxDir "git" ["rebase", "--continue"] step2.2
    match r3.1.2 with
    | some err2 => (.ok (some err2), r3.2)
    | none =>
      match getHardenedBranch tag with
      | .error p => (.error p, r3.2)
      | .ok _ => (.ok none, r3.2)

/-- The call is `git rebase --continue`. -/
def IsContinue (c : Call) : Bool :=
  c.argv == ["git", "rebase", "--continue"]

/-- The call is a `git rm <file>`. -/
def IsRm (c : Call) : Prop :=
  ∃ file : String, c.argv = ["git", "rm", file]

/-! ## Lemmas on the pattern matcher -/

theorem isDigits_iff (s : String) :
    IsDigits s = true ↔ s.data ≠ [] ∧ ∀ c ∈ s.data, c.isDigit = true := by
  unfold IsDigits
  cases h : s.data <;> simp

theorem digitPlus_sound {α : Type} (s : List Char) :
    ∀ (k : List Char → List Char → Option α) (a : α), digitPlus s k = some a →
      ∃ m r, s = m ++ r ∧ m ≠ [] ∧ (∀ c ∈ m, c.isDigit = true) ∧ k m r = some a := by
  induction s with
  | nil => intro k a h; simp [digitPlus] at h
  | cons c cs ih =>
    intro k a h
    unfold digitPlus at h
    by_cases hc : c.isDigit = true
    · simp only [hc, if_true] at h
      cases hrec : digitPlus cs (fun m r => k (c :: m) r) with
      | some b =>
        rw [hrec] at h
        obtain ⟨m, r, hs, _, hd, hk⟩ := ih _ b hrec
        refine ⟨c :: m, r, by simp [hs], by simp, ?_, ?_⟩
        · intro x hx
          rcases List.mem_cons.mp hx with rfl | hx
          · exact hc
          · exact hd x hx
        · simpa using hk.trans h
      | none =>
        rw [hrec] at h
        exact ⟨[c], cs, rfl, by simp, by simpa using hc, h⟩
    · simp [hc] at h

theorem digitPlus_greedy {α : Type} (xs : List Char) :
    ∀ (x : Char) (r : List Char) (k : List Char → List Char → Option α) (a : α),
      x.isDigit = true → (∀ c ∈ xs, c.isDigit = true) →
      (∀ c ∈ r.head?, c.isDigit = false) →
      k (x :: xs) r = some a → digitPlus (x :: xs ++ r) k = some a := by
  induction xs with
  | nil =>
    intro x r k a hx _ hr hk
    have hnone : digitPlus r (fun m r => k (x :: m) r) = none := by
      cases r with
      | nil => rfl
      | cons y ys =>
        have : y.isDigit = false := hr y (by simp)
        simp [digitPlus, this]
    simp only [List.cons_append, List.nil_append]
    unfold digitPlus
    simp only [hx, if_true, hnone]
    exact hk
  | cons y ys ih =>
    intro x r k a hx hxs hr hk
    have hy : y.isDigit = true := hxs y (by simp)
    have hys : ∀ c ∈ ys, c.isDigit = true := fun c hc => hxs c (by simp [hc])
    have hrec := ih y r (fun m r => k (x :: m) r) a hy hys hr hk
    simp only [List.cons_append] at hrec ⊢
    rw [digitPlus]
    simp only [hx, if_true, hrec]

theorem digitPlus_total {α : Type} (P : α → Prop) (c : Char) (cs : List Char)
    (k : List Char → List Char → Option α) (hc : c.isDigit = true)
    (hk : ∀ m r, ∃ a, k m r = some a ∧ P a) :
    ∃ a, digitPlus (c :: cs) k = some a ∧ P a := by
  cases hrec : digitPlus (c :: cs) k with
  | some a =>
    obtain ⟨m, r, _, _, _, hka⟩ := digitPlus_sound _ k a hrec
    obtain ⟨b, hb, hP⟩ := hk m r
    rw [hka] at hb
    cases hb
    exact ⟨a, rfl, hP⟩
  | none =>
    exfalso
    unfold digitPlus at hrec
    simp only [hc, if_true] at hrec
    cases h2 : digitPlus cs (fun m r => k (c :: m) r) with
    | some b => rw [h2] at hrec; cases hrec
    | none =>
      rw [h2] at hrec
      obtain ⟨b, hb, _⟩ := hk [c] cs
      have hrec2 : k [c] cs = none := hrec
      rw [hrec2] at hb
      cases hb

theorem anyChar_sound {α : Type} (s : List Char) (k : Char → List Char → Option α) (a : α)
    (h : anyChar s k = some a) : ∃ c r, s = c :: r ∧ c ≠ '\n' ∧ k c r = some a := by
  cases s with
  | nil => simp [anyChar] at h
  | cons c r =>
    by_cases hc : c = '\n'
    · simp [anyChar, hc] at h
    · exact ⟨c, r, rfl, hc, by simpa [anyChar, hc] using h⟩

theorem matchHere_sound (s : List Char) (g : List String) (h : matchHere s = some g) :
    ∃ (X : List Char) (c : Char) (Y : List Char) (d : Char) (Z rest : List Char),
      s = 'v' :: X ++ c :: Y ++ d :: Z ++ rest ∧
      IsDigits ⟨X⟩ = true ∧ c ≠ '\n' ∧ IsDigits ⟨Y⟩ = true ∧ d ≠ '\n' ∧ IsDigits ⟨Z⟩ = true ∧
      g = [String.mk ('v' :: X ++ c :: Y ++ d :: Z), String.mk X, String.mk Y] := by
  unfold matchHere at h
  split at h
  · rename_i s1
    obtain ⟨X, r1, h1, hX0, hXd, h⟩ := digitPlus_sound _ _ _ h
    obtain ⟨c, r2, h2, hc, h⟩ := anyChar_sound _ _ _ h
    obtain ⟨Y, r3, h3, hY0, hYd, h⟩ := digitPlus_sound _ _ _ h
    obtain ⟨d, r4, h4, hd, h⟩ := anyChar_sound _ _ _ h
    obtain ⟨Z, r5, h5, hZ0, hZd, h⟩ := digitPlus_sound _ _ _ h
    refine ⟨X, c, Y, d, Z, r5, ?_, ?_, hc, ?_, hd, ?_, ?_⟩
    · subst h1 h2 h3 h4 h5
      simp
    · exact (isDigits_iff _).2 ⟨hX0, hXd⟩
    · exact (isDigits_iff _).2 ⟨hY0, hYd⟩
    · exact (isDigits_iff _).2 ⟨hZ0, hZd⟩
    · simpa using h.symm
  · cases h

theorem matchHere_wellFormed (X Y Z S : List Char) (hX : IsDigits ⟨X⟩ = true)
    (hY : IsDigits ⟨Y⟩ = true) (hZ : IsDigits ⟨Z⟩ = true) :
    ∃ w : String, w ≠ "" ∧
      matchHere ('v' :: X ++ '.' :: Y ++ '.' :: Z ++ S) = some [w, String.mk X, String.mk Y] := by
  obtain ⟨hX0, hXd⟩ := (isDigits_iff _).1 hX
  obtain ⟨hY0, hYd⟩ := (isDigits_iff _).1 hY
  obtain ⟨hZ0, hZd⟩ := (isDigits_iff _).1 hZ
  obtain ⟨x, xs, rfl⟩ := List.exists_cons_of_ne_nil hX0
  obtain ⟨y, ys, rfl⟩ := List.exists_cons_of_ne_nil hY0
  obtain ⟨z, zs, rfl⟩ := List.exists_cons_of_ne_nil hZ0
  have hdot : ∀ (r : List Char), ∀ c ∈ ('.' :: r).head?, c.isDigit = false := by
    intro r c hc
    simp at hc
    subst hc
    decide
  obtain ⟨a, ha, w, hw, rfl⟩ := digitPlus_total
    (fun a => ∃ w : String, w ≠ "" ∧ a = [w, String.mk (x :: xs), String.mk (y :: ys)])
    z (zs ++ S)
    (fun patch _ => some [String.mk ('v' :: (x :: xs) ++ '.' :: (y :: ys) ++ '.' :: patch),
      String.mk (x :: xs), String.mk (y :: ys)])
    (hZd z (by simp))
    (fun m r => ⟨_, rfl, _, by simp [String.ext_iff], rfl⟩)
  refine ⟨w, hw, ?_⟩
  have h2 := digitPlus_greedy ys y ('.' :: (z :: zs) ++ S)
    (fun minor s4 => anyChar s4 fun d s5 => digitPlus s5 fun patch _ =>
      some [String.mk ('v' :: (x :: xs) ++ '.' :: minor ++ d :: patch),
        String.mk (x :: xs), String.mk minor])
    _ (hYd y (by simp)) (fun c hc => hYd c (by simp [hc])) (hdot _)
    (by simpa [anyChar] using ha)
  have h1 := digitPlus_greedy xs x ('.' :: (y :: ys) ++ '.' :: (z :: zs) ++ S)
    (fun major s2 => anyChar s2 fun c s3 => digitPlus s3 fun minor s4 =>
      anyChar s4 fun d s5 => digitPlus s5 fun patch _ =>
      some [String.mk ('v' :: major ++ c :: minor ++ d :: patch),
        String.mk major, String.mk minor])
    _ (hXd x (by simp)) (fun c hc => hXd c (by simp [hc])) (hdot _)
    (by simpa [anyChar] using h2)
  simpa [matchHere] using h1

theorem findSubmatch_wellFormed (X Y Z S : String) (hX : IsDigits X = true)
    (hY : IsDigits Y = true) (hZ : IsDigits Z = true) :
    ∃ w : String, w ≠ "" ∧
      FindStringSubmatch ("v" ++ X ++ "." ++ Y ++ "." ++ Z ++ S) = [w, X, Y] := by
  obtain ⟨w, hw, hm⟩ := matchHere_wellFormed X.data Y.data Z.data S.data hX hY hZ
  refine ⟨w, hw, ?_⟩
  have hdata : ("v" ++ X ++ "." ++ Y ++ "." ++ Z ++ S).data
      = 'v' :: X.data ++ '.' :: Y.data ++ '.' :: Z.data ++ S.data := by
    simp [String.data_append]
  unfold FindStringSubmatch
  rw [hdata]
  simp only [List.cons_append] at hm ⊢
  rw [findSubmatch, hm]

theorem findSubmatch_cases (s : List Char) :
    findSubmatch s = [] ∨
    ∃ (pre X : List Char) (c : Char) (Y : List Char) (d : Char) (Z post : List Char),
      s = pre ++ 'v' :: X ++ c :: Y ++ d :: Z ++ post ∧
      IsDigits ⟨X⟩ = true ∧ c ≠ '\n' ∧ IsDigits ⟨Y⟩ = true ∧ d ≠ '\n' ∧ IsDigits ⟨Z⟩ = true ∧
      findSubmatch s = [String.mk ('v' :: X ++ c :: Y ++ d :: Z), String.mk X, String.mk Y] := by
  induction s with
  | nil => left; rfl
  | cons a as ih =>
    cases hm : matchHere (a :: as) with
    | some g =>
      right
      obtain ⟨X, c, Y, d, Z, rest, hs, hX, hc, hY, hd, hZ, hg⟩ := matchHere_sound _ _ hm
      exact ⟨[], X, c, Y, d, Z, rest, by simpa using hs, hX, hc, hY, hd, hZ,
        by rw [findSubmatch, hm, hg]⟩
    | none =>
      have hstep : findSubmatch (a :: as) = findSubmatch as := by rw [findSubmatch, hm]
      rcases ih with h | ⟨pre, X, c, Y, d, Z, post, hs, hX, hc, hY, hd, hZ, hg⟩
      · left; rw [hstep, h]
      · right
        exact ⟨a :: pre, X, c, Y, d, Z, post, by simp [hs], hX, hc, hY, hd, hZ,
          by rw [hstep, hg]⟩

theorem atoi_digits (Y : String) (hY : IsDigits Y = true)
    (hr : decimalValue Y.data < 2 ^ 63) : Atoi Y = .ok (decimalValue Y.data : Int) := by
  obtain ⟨h0, hd⟩ := (isDigits_iff _).1 hY
  obtain ⟨c, rest, hcr⟩ := List.exists_cons_of_ne_nil h0
  have hc : c.isDigit = true := hd c (by simp [hcr])
  have hminus : c ≠ '-' := by rintro rfl; revert hc; decide
  have hplus : c ≠ '+' := by rintro rfl; revert hc; decide
  have hall : (c :: rest).all Char.isDigit = true := by
    rw [List.all_eq_true]; intro x hx; exact hd x (by rw [hcr]; exact hx)
  have hr2 : decimalValue (c :: rest) < 9223372036854775808 := by
    rw [← hcr]; exact lt_of_lt_of_le hr (by norm_num)
  unfold Atoi
  rw [hcr]
  simp only [hminus, hplus, or_self, if_false]
  simp [hall, hr2, hminus]

/-! ## Tag and branch naming: the claims -/

/-- C1: for every tag `"v" ++ X ++ "." ++ Y ++ "." ++ Z ++ S` with `X`, `Y`, `Z`
non-empty strings of decimal digits and `S` any suffix, `getHardenedBranch`
returns exactly `"hardened-nginx-" ++ X ++ "." ++ Y ++ ".x-fix"`. -/
theorem getHardenedBranch_wellFormed (X Y Z S : String) (hX : IsDigits X = true)
    (hY : IsDigits Y = true) (hZ : IsDigits Z = true) :
    getHardenedBranch ("v" ++ X ++ "." ++ Y ++ "." ++ Z ++ S)
      = .ok ("hardened-nginx-" ++ X ++ "." ++ Y ++ ".x-fix") := by
  obtain ⟨w, hw, hg⟩ := findSubmatch_wellFormed X Y Z S hX hY hZ
  unfold getHardenedBranch
  rw [hg]
  simp [index, hw, bind, Except.bind, pure, Except.pure]

theorem getHardenedBranch_wellFormed_witness :
    getHardenedBranch "v1.9.3" = .ok "hardened-nginx-1.9.x-fix" :=
  getHardenedBranch_wellFormed "1" "9" "3" "" (by decide) (by decide) (by decide)

theorem not_wellFormed_of_head (tag : String) (c : Char) (cs : List Char)
    (h : tag.data = c :: cs) (hc : c ≠ 'v') : ¬ WellFormedTag tag := by
  rintro ⟨X, Y, Z, S, _, _, _, rfl⟩
  simp [String.data_append] at h
  exact hc h.1.symm

/-- C2, as stated, fails: `controller-v1.9.3` does not have the shape
`v<digits>.<digits>.<digits>...`, yet `getHardenedBranch` returns a branch
name for it. -/
theorem getHardenedBranch_prefixed_tag :
    ¬ WellFormedTag "controller-v1.9.3" ∧
      getHardenedBranch "controller-v1.9.3" = .ok "hardened-nginx-1.9.x-fix" :=
  ⟨not_wellFormed_of_head _ 'c' "ontroller-v1.9.3".data rfl (by decide), by decide⟩

/-- The separators of the pattern are unescaped dots: any character but a
newline is accepted between the numeric components. -/
theorem getHardenedBranch_any_separator :
    ¬ WellFormedTag "v1x2y3" ∧ getHardenedBranch "v1x2y3" = .ok "hardened-nginx-1.2.x-fix" := by
  refine ⟨?_, by decide⟩
  rintro ⟨X, Y, Z, S, _, _, _, h⟩
  have hdot : '.' ∈ "v1x2y3".data := by
    rw [h]; simp [String.data_append]
  revert hdot
  decide

/-- On a tag in which the pattern matches nowhere the match list is nil and
`groups[0]` panics, before the guard on `version` is reached. -/
theorem getHardenedBranch_no_match_panics :
    getHardenedBranch "main" = .error (.indexOutOfRange 0 0) := by decide

theorem matchHere_starts (s : List Char) (g : List String) (h : matchHere s = some g) :
    ∃ (c : Char) (rest : List Char), s = 'v' :: c :: rest ∧ c.isDigit = true := by
  obtain ⟨X, c, Y, d, Z, rest, hs, hX, _⟩ := matchHere_sound s g h
  obtain ⟨hX0, hXd⟩ := (isDigits_iff _).1 hX
  obtain ⟨x, xs, rfl⟩ := List.exists_cons_of_ne_nil hX0
  exact ⟨x, xs ++ c :: Y ++ d :: Z ++ rest, by simp [hs], hXd x (by simp)⟩

theorem findSubmatch_skip_prefix (P : List Char) :
    ∀ V : List Char, noVersionStart P = true → (∀ c ∈ V.head?, c.isDigit = false) →
      findSubmatch (P ++ V) = findSubmatch V := by
  induction P with
  | nil => intro V _ _; rfl
  | cons p ps ih =>
    intro V hP hV
    have hsplit : startsVersion (p :: ps) = false ∧ noVersionStart ps = true := by
      simpa [noVersionStart] using hP
    have hnone : matchHere (p :: (ps ++ V)) = none := by
      cases hm : matchHere (p :: (ps ++ V)) with
      | none => rfl
      | some g =>
        exfalso
        obtain ⟨c, rest, hs, hc⟩ := matchHere_starts _ g hm
        have hp : p = 'v' := (List.cons.inj hs).1
        have hrest : ps ++ V = c :: rest := (List.cons.inj hs).2
        cases ps with
        | nil =>
          have hVc : V = c :: rest := by simpa using hrest
          have := hV c (by simp [hVc])
          rw [hc] at this
          cases this
        | cons q qs =>
          have hq : q = c := by
            have := (List.cons.inj hrest).1
            exact this
          have hst : startsVersion (p :: q :: qs) = true := by
            simp [startsVersion, hp, hq, hc]
          rw [hsplit.1] at hst
          cases hst
    have hstep : findSubmatch ((p :: ps) ++ V) = findSubmatch (ps ++ V) := by
      rw [List.cons_append, findSubmatch, hnone]
    rw [hstep]
    exact ih V hsplit.2 hV

theorem not_wellFormed_of_prefix (P V : List Char) (tag : String)
    (hP0 : P ≠ []) (hP : noVersionStart P = true) (htag : tag.data = P ++ 'v' :: V) :
    ¬ WellFormedTag tag := by
  rintro ⟨X, Y, Z, S, hX, _, _, rfl⟩
  obtain ⟨hX0, hXd⟩ := (isDigits_iff _).1 hX
  obtain ⟨x, xs, hx⟩ := List.exists_cons_of_ne_nil hX0
  have hxd : x.isDigit = true := hXd x (by simp [hx])
  obtain ⟨p, ps, rfl⟩ := List.exists_cons_of_ne_nil hP0
  have hsplit : startsVersion (p :: ps) = false ∧ noVersionStart ps = true := by
    simpa [noVersionStart] using hP
  simp only [String.data_append, hx, List.append_assoc, List.cons_append] at htag
  have hp : 'v' = p := (List.cons.inj htag).1
  have hrest := (List.cons.inj htag).2
  cases ps with
  | nil =>
    have hxv : x = 'v' := by
      have := (List.cons.inj hrest).1
      simpa using this
    rw [hxv] at hxd
    revert hxd
    decide
  | cons q qs =>
    have hq : x = q := (List.cons.inj hrest).1
    have hst : startsVersion (p :: q :: qs) = true := by
      simp [startsVersion, ← hp, ← hq, hxd]
    rw [hsplit.1] at hst
    cases hst

/-- C2, amended: the version need not start the tag. For every tag
`P ++ "v" ++ X ++ "." ++ Y ++ "." ++ Z ++ S` with `X`, `Y`, `Z` non-empty
strings of decimal digits, literal dots, any suffix `S` and a non-empty prefix
`P` in which no `v` is directly followed by a decimal digit, the tag does not
have the shape `v<digits>.<digits>.<digits>...`, and `getHardenedBranch`
returns the complete name `hardened-nginx-X.Y.x-fix` for it. -/
theorem getHardenedBranch_prefix_accepted (P X Y Z S : String) (hP0 : P ≠ "")
    (hP : noVersionStart P.data = true) (hX : IsDigits X = true)
    (hY : IsDigits Y = true) (hZ : IsDigits Z = true) :
    ¬ WellFormedTag (P ++ "v" ++ X ++ "." ++ Y ++ "." ++ Z ++ S) ∧
    getHardenedBranch (P ++ "v" ++ X ++ "." ++ Y ++ "." ++ Z ++ S)
      = .ok ("hardened-nginx-" ++ X ++ "." ++ Y ++ ".x-fix") := by
  have hdata : (P ++ "v" ++ X ++ "." ++ Y ++ "." ++ Z ++ S).data
      = P.data ++ ("v" ++ X ++ "." ++ Y ++ "." ++ Z ++ S).data := by
    simp [String.data_append]
  constructor
  · apply not_wellFormed_of_prefix P.data
      (X.data ++ '.' :: Y.data ++ '.' :: Z.data ++ S.data) _ ?_ hP
    · simp [String.data_append]
    · intro h
      exact hP0 (String.ext h)
  · obtain ⟨w, hw, hg⟩ := findSubmatch_wellFormed X Y Z S hX hY hZ
    have hV : ∀ c ∈ ("v" ++ X ++ "." ++ Y ++ "." ++ Z ++ S).data.head?, c.isDigit = false := by
      intro c hc
      simp [String.data_append] at hc
      subst hc
      decide
    have hfind : FindStringSubmatch (P ++ "v" ++ X ++ "." ++ Y ++ "." ++ Z ++ S) = [w, X, Y] := by
      unfold FindStringSubmatch at hg ⊢
      rw [hdata, findSubmatch_skip_prefix P.data _ hP hV, hg]
    unfold getHardenedBranch
    rw [hfind]
    simp [index, hw, bind, Except.bind, pure, Except.pure]

theorem getHardenedBranch_prefix_accepted_witness :
    ¬ WellFormedTag "nginx-dev-v2.10.0-rc1" ∧
      getHardenedBranch "nginx-dev-v2.10.0-rc1" = .ok "hardened-nginx-2.10.x-fix" :=
  getHardenedBranch_prefix_accepted "nginx-dev-" "2" "10" "0" "-rc1" (by decide) (by decide)
    (by decide) (by decide) (by decide)

/-- C3: for every well-formed tag `vX.Y.Z...` whose minor `Y` has a decimal
value `n` with `1 ≤ n` inside the 64-bit `int` range, `getLastHardenedBranch`
returns exactly `hardened-nginx-X.<n-1>.x-fix`, with `<n-1>` the decimal
rendering of `n - 1` and the major `X` copied unchanged. -/
theorem getLastHardenedBranch_wellFormed (X Y Z S : String) (hX : IsDigits X = true)
    (hY : IsDigits Y = true) (hZ : IsDigits Z = true)
    (h1 : 1 ≤ decimalValue Y.data) (h2 : decimalValue Y.data < 2 ^ 63) :
    getLastHardenedBranch ("v" ++ X ++ "." ++ Y ++ "." ++ Z ++ S)
      = .ok ("hardened-nginx-" ++ X ++ "." ++ Nat.repr (decimalValue Y.data - 1) ++ ".x-fix") := by
  obtain ⟨w, _, hg⟩ := findSubmatch_wellFormed X Y Z S hX hY hZ
  have hfmt : formatInt ((decimalValue Y.data : Int) - 1) = Nat.repr (decimalValue Y.data - 1) := by
    have : ((decimalValue Y.data : Int) - 1) = Int.ofNat (decimalValue Y.data - 1) := by
      simp only [Int.ofNat_eq_coe]; omega
    rw [this]; rfl
  unfold getLastHardenedBranch
  rw [hg]
  simp [index, bind, Except.bind, pure, Except.pure, atoi_digits Y hY h2, hfmt]

theorem getLastHardenedBranch_wellFormed_witness :
    getLastHardenedBranch "v1.9.3" = .ok "hardened-nginx-1.8.x-fix" :=
  getLastHardenedBranch_wellFormed "1" "9" "3" "" (by decide) (by decide) (by decide)
    (by decide) (by decide)

/-- C4, as stated, fails: for the well-formed tag `v1.0.0`, whose minor is 0,
`getLastHardenedBranch` returns a name whose minor component is `-1`. -/
theorem getLastHardenedBranch_minor_zero :
    WellFormedTag "v1.0.0" ∧ getLastHardenedBranch "v1.0.0" = .ok "hardened-nginx-1.-1.x-fix" :=
  ⟨⟨"1", "0", "0", "", by decide, by decide, by decide, by decide⟩, by decide⟩

/-- C4, amended: for every well-formed tag whose minor component has the
value 0, `getLastHardenedBranch` applies the same subtraction as for any other
minor, with no boundary handling, and returns `hardened-nginx-X.-1.x-fix`. -/
theorem getLastHardenedBranch_minor_zero_negative (X Y Z S : String) (hX : IsDigits X = true)
    (hY : IsDigits Y = true) (hZ : IsDigits Z = true) (h0 : decimalValue Y.data = 0) :
    getLastHardenedBranch ("v" ++ X ++ "." ++ Y ++ "." ++ Z ++ S)
      = .ok ("hardened-nginx-" ++ X ++ ".-1.x-fix") := by
  obtain ⟨w, _, hg⟩ := findSubmatch_wellFormed X Y Z S hX hY hZ
  have hat : Atoi Y = .ok 0 := by
    have := atoi_digits Y hY (by rw [h0]; decide)
    rw [h0] at this
    exact this
  have hfmt : formatInt (-1) = "-1" := by decide
  unfold getLastHardenedBranch
  rw [hg]
  simp [index, bind, Except.bind, pure, Except.pure, hat, hfmt, String.ext_iff]

theorem getLastHardenedBranch_minor_zero_negative_witness :
    getLastHardenedBranch "v2.0.5" = .ok "hardened-nginx-2.-1.x-fix" :=
  getLastHardenedBranch_minor_zero_negative "2" "0" "5" "" (by decide) (by decide) (by decide)
    (by decide)

/-! ## Conflict matching -/

theorem containsChars_iff (s sub : List Char) : containsChars s sub = true ↔ sub <:+: s := by
  induction s with
  | nil => cases sub <;> simp [containsChars]
  | cons c cs ih =>
    rw [containsChars, Bool.or_eq_true, ih, List.infix_cons_iff, List.isPrefixOf_iff_prefix]

theorem contains_iff (s sub : String) : Contains s sub = true ↔ IsSubstring sub s :=
  containsChars_iff s.data sub.data

theorem findHardenedCommit_none (t : String) (cs : List CommitModification)
    (h : ∀ c ∈ cs, ¬ IsSubstring c.Message t) : findHardenedCommit t cs = {} := by
  induction cs with
  | nil => rfl
  | cons c cs ih =>
    have hc : Contains t c.Message = false := by
      rw [← Bool.not_eq_true, contains_iff]; exact h c (by simp)
    rw [findHardenedCommit]
    simp only [hc, Bool.false_eq_true, if_false]
    exact ih (fun c' hc' => h c' (by simp [hc']))

theorem findHardenedCommit_cases (t : String) (cs : List CommitModification) :
    (∃ i c, FirstMatch t cs i c ∧ findHardenedCommit t cs = c) ∨
    ((∀ c ∈ cs, ¬ IsSubstring c.Message t) ∧ findHardenedCommit t cs = ⟨"", "", []⟩) := by
  induction cs with
  | nil => right; exact ⟨by simp, rfl⟩
  | cons c cs ih =>
    by_cases hc : Contains t c.Message = true
    · left
      refine ⟨0, c, ⟨by simp, (contains_iff _ _).1 hc, ?_⟩, by simp [findHardenedCommit, hc]⟩
      intro j c' hj
      omega
    · have hstep : findHardenedCommit t (c :: cs) = findHardenedCommit t cs := by
        rw [findHardenedCommit]; simp [hc]
      have hns : ¬ IsSubstring c.Message t := fun h => hc ((contains_iff _ _).2 h)
      rcases ih with ⟨i, c1, ⟨hi, hsub, hlow⟩, hres⟩ | ⟨hnone, hres⟩
      · left
        refine ⟨i + 1, c1, ⟨by simpa using hi, hsub, ?_⟩, hstep.trans hres⟩
        intro j c' hj hget
        cases j with
        | zero =>
          simp at hget
          subst hget
          exact hns
        | succ j => exact hlow j c' (by omega) (by simpa using hget)
      · right
        refine ⟨?_, hstep.trans hres⟩
        intro c' hc'
        rcases List.mem_cons.mp hc' with rfl | h
        · exact hns
        · exact hnone c' h

/-- C5: for every conflict text `t` and every list of patch entries `cs`,
`findHardenedCommit t cs` is the entry of lowest index whose message occurs in
`t`, and the zero entry (empty message) when no message occurs in `t`; on the
built-in series a text in which `Rancher go.work.sum changes` is the first
message to occur resolves to index 8, and index 9 is never the first match. -/
theorem findHardenedCommit_first_match (t : String) (cs : List CommitModification) :
    ((∃ i c, FirstMatch t cs i c ∧ findHardenedCommit t cs = c) ∨
      ((∀ c ∈ cs, ¬ IsSubstring c.Message t) ∧ findHardenedCommit t cs = ⟨"", "", []⟩)) ∧
    (IsSubstring "Rancher go.work.sum changes" t →
      (∀ c ∈ hardenedCommits.take 8, ¬ IsSubstring c.Message t) →
      FirstMatch t hardenedCommits 8 ⟨"Rancher go.work.sum changes", "", []⟩ ∧
      (∀ c, ¬ FirstMatch t hardenedCommits 9 c) ∧
      findHardenedCommit t hardenedCommits = ⟨"Rancher go.work.sum changes", "", []⟩) := by
  refine ⟨findHardenedCommit_cases t cs, ?_⟩
  intro hsub hearly
  have h8 : hardenedCommits[8]? = some ⟨"Rancher go.work.sum changes", "", []⟩ := by decide
  refine ⟨⟨h8, hsub, ?_⟩, ?_, ?_⟩
  · intro j c' hj hget
    apply hearly
    have : (hardenedCommits.take 8)[j]? = some c' := by
      rw [List.getElem?_take_of_lt hj]; exact hget
    exact List.getElem?_mem this
  · rintro c ⟨_, _, hlow⟩
    exact hlow 8 _ (by omega) h8 hsub
  · have hc : ∀ m, m ∈ hardenedCommits.take 8 → Contains t m.Message = false := by
      intro m hm
      rw [← Bool.not_eq_true, contains_iff]; exact hearly m hm
    have h8c : Contains t "Rancher go.work.sum changes" = true := (contains_iff _ _).2 hsub
    simp only [hardenedCommits, List.take, List.mem_cons, forall_eq_or_imp] at hc
    obtain ⟨c0, c1, c2, c3, c4, c5, c6, c7, _⟩ := hc
    simp only [findHardenedCommit, hardenedCommits] at c0 c1 c2 c3 c4 c5 c6 c7 ⊢
    simp [c0, c1, c2, c3, c4, c5, c6, c7, h8c]

theorem findHardenedCommit_first_match_witness :
    FirstMatch "CONFLICT: Rancher go.work.sum changes" hardenedCommits 8
        ⟨"Rancher go.work.sum changes", "", []⟩ ∧
      (∀ c, ¬ FirstMatch "CONFLICT: Rancher go.work.sum changes" hardenedCommits 9 c) ∧
      findHardenedCommit "CONFLICT: Rancher go.work.sum changes" hardenedCommits
        = ⟨"Rancher go.work.sum changes", "", []⟩ :=
  (findHardenedCommit_first_match "CONFLICT: Rancher go.work.sum changes" []).2
    (by decide) (by decide)

/-! ## The command runner -/

theorem formatInt_natCast (n : Nat) : formatInt (n : Int) = Nat.repr n := rfl

theorem RunCommandInDir_trace {σ : Type} (E : Exec σ) (dir cmd : String) (args : List String)
    (s : Sys σ) :
    (RunCommandInDir E dir cmd args s).2.trace
      = s.trace ++ [callOf E dir cmd args s] := rfl

theorem RunCommandInDir_ok {σ : Type} (E : Exec σ) (dir cmd : String) (args : List String)
    (s : Sys σ) (h : (E.run s.world dir cmd args).1.failed = false) :
    (RunCommandInDir E dir cmd args s).1.2 = none := by
  simp [RunCommandInDir, h]

/-! ## Cherry-pick replay -/

theorem not_isPick_of_two_args (c : Call) (h : c.args.length = 2) : ¬ IsPick c := by
  rintro ⟨_, commit, hargs⟩
  rw [hargs] at h
  simp at h

theorem RemoveFiles_trace {σ : Type} (E : Exec σ) (dir : String) (files : List String) :
    ∀ s : Sys σ, ∃ ts : List Call, (RemoveFiles E dir files s).2.trace = s.trace ++ ts ∧
      ∀ c ∈ ts, c.args.length = 2 := by
  induction files with
  | nil => intro s; exact ⟨[], by simp [RemoveFiles], by simp⟩
  | cons file files ih =>
    intro s
    cases hr : (RunCommandInDir E dir "git" ["rm", file] s).1.2 with
    | some err =>
      refine ⟨[callOf E dir "git" ["rm", file] s], ?_, by simp [callOf]⟩
      rw [RemoveFiles]
      simp only [hr]
      exact RunCommandInDir_trace E dir "git" ["rm", file] s
    | none =>
      obtain ⟨ts, hts, hall⟩ := ih (RunCommandInDir E dir "git" ["rm", file] s).2
      refine ⟨callOf E dir "git" ["rm", file] s :: ts, ?_, ?_⟩
      · rw [RemoveFiles]
        simp only [hr]
        rw [hts, RunCommandInDir_trace]
        simp
      · intro c hc
        rcases List.mem_cons.mp hc with rfl | hc
        · rfl
        · exact hall c hc

theorem AddFiles_trace {σ : Type} (E : Exec σ) (dir : String) (files : List String) :
    ∀ s : Sys σ, ∃ ts : List Call, (AddFiles E dir files s).2.trace = s.trace ++ ts ∧
      ∀ c ∈ ts, c.args.length = 2 := by
  induction files with
  | nil => intro s; exact ⟨[], by simp [AddFiles], by simp⟩
  | cons file files ih =>
    intro s
    cases hr : (RunCommandInDir E dir "git" ["add", file] s).1.2 with
    | some err =>
      refine ⟨[callOf E dir "git" ["add", file] s], ?_, by simp [callOf]⟩
      rw [AddFiles]
      simp only [hr]
      exact RunCommandInDir_trace E dir "git" ["add", file] s
    | none =>
      obtain ⟨ts, hts, hall⟩ := ih (RunCommandInDir E dir "git" ["add", file] s).2
      refine ⟨callOf E dir "git" ["add", file] s :: ts, ?_, ?_⟩
      · rw [AddFiles]
        simp only [hr]
        rw [hts, RunCommandInDir_trace]
        simp
      · intro c hc
        rcases List.mem_cons.mp hc with rfl | hc
        · rfl
        · exact hall c hc

theorem ActOnFiles_trace {σ : Type} (E : Exec σ) (dir action : String) (files : List String)
    (s : Sys σ) : ∃ ts : List Call, (ActOnFiles E dir action files s).2.trace = s.trace ++ ts ∧
      ∀ c ∈ ts, c.args.length = 2 := by
  unfold ActOnFiles
  split
  · exact AddFiles_trace E dir files s
  · split
    · exact RemoveFiles_trace E dir files s
    · exact ⟨[], by simp, by simp⟩

theorem unmatchedPickIsLast_append (res : Option GoError) (ts rest : List Call)
    (h : ∀ c ∈ ts, ¬ IsPick c) (hr : UnmatchedPickIsLast res rest) :
    UnmatchedPickIsLast res (ts ++ rest) := by
  induction ts with
  | nil => simpa using hr
  | cons c ts ih =>
    refine ⟨fun hp => absurd hp (h c (by simp)), ih (fun c' hc' => h c' (by simp [hc']))⟩

theorem unmatchedPickIsLast_split (res : Option GoError) (pre : List Call) :
    ∀ (l : List Call) (c : Call) (post : List Call) (e : GoError),
      UnmatchedPickIsLast res l → l = pre ++ c :: post → IsPick c → c.err = some e →
      Unmatched e → post = [] ∧ res = some e := by
  induction pre with
  | nil =>
    intro l c post e hl heq hp he hu
    subst heq
    exact hl.1 hp e he hu
  | cons a pre ih =>
    intro l c post e hl heq hp he hu
    subst heq
    exact ih _ c post e hl.2 rfl hp he hu

theorem findHardenedCommit_unmatched (e : GoError) (h : Unmatched e) :
    (findHardenedCommit e.Error hardenedCommits).Message = "" := by
  rw [findHardenedCommit_none e.Error hardenedCommits h]

theorem isPick_callOf_pick {σ : Type} (E : Exec σ) (commit : String) (s : Sys σ) :
    IsPick (callOf E nginxDir "git" ["cherry-pick", "-Xtheirs", commit] s) :=
  ⟨rfl, commit, rfl⟩

theorem cherryPickLoop_unmatched {σ : Type} (E : Exec σ) (p : String) (n : Nat) :
    ∀ s : Sys σ, ∃ new : List Call, (cherryPickLoop E p n s).2.trace = s.trace ++ new ∧
      UnmatchedPickIsLast (cherryPickLoop E p n s).1 new ∧
      ∀ m, n = m + 1 → ∃ rest, new = callOf E nginxDir "git"
        ["cherry-pick", "-Xtheirs", p ++ "~" ++ Nat.repr m] s :: rest := by
  induction n with
  | zero => intro s; exact ⟨[], by simp [cherryPickLoop], trivial, fun m hm => by omega⟩
  | succ n ih =>
    intro s
    have htr := RunCommandInDir_trace E nginxDir "git"
      ["cherry-pick", "-Xtheirs", p ++ "~" ++ Nat.repr n] s
    have hhd : ∀ (l : List Call) (m : Nat), n + 1 = m + 1 →
        ∃ rest, callOf E nginxDir "git"
          ["cherry-pick", "-Xtheirs", p ++ "~" ++ Nat.repr n] s :: l
          = callOf E nginxDir "git"
            ["cherry-pick", "-Xtheirs", p ++ "~" ++ Nat.repr m] s :: rest := by
      intro l m hm
      have : n = m := by omega
      subst this
      exact ⟨l, rfl⟩
    generalize hc0 : callOf E nginxDir "git"
      ["cherry-pick", "-Xtheirs", p ++ "~" ++ Nat.repr n] s = call0 at htr hhd
    have herr0 : call0.err = (RunCommandInDir E nginxDir "git"
      ["cherry-pick", "-Xtheirs", p ++ "~" ++ Nat.repr n] s).1.2 := by rw [← hc0]; rfl
    have hpick0 : IsPick call0 := by rw [← hc0]; exact isPick_callOf_pick E _ s
    generalize hr : RunCommandInDir E nginxDir "git"
      ["cherry-pick", "-Xtheirs", p ++ "~" ++ Nat.repr n] s = r at htr herr0
    have hunfold : cherryPickLoop E p (n + 1) s =
        match r.1.2 with
        | some err =>
          if (findHardenedCommit err.Error hardenedCommits).Message ≠ "" then
            match (ActOnFiles E nginxDir (findHardenedCommit err.Error hardenedCommits).Action
                (findHardenedCommit err.Error hardenedCommits).Files r.2).1 with
            | some err2 => (some err2, (ActOnFiles E nginxDir
                (findHardenedCommit err.Error hardenedCommits).Action
                (findHardenedCommit err.Error hardenedCommits).Files r.2).2)
            | none =>
              match (RunCommandInDir E nginxDir "git" ["cherry-pick", "--continue"]
                (ActOnFiles E nginxDir (findHardenedCommit err.Error hardenedCommits).Action
                  (findHardenedCommit err.Error hardenedCommits).Files r.2).2).1.2 with
              | some err3 =>
                (some (.text ("unable to cherry-pick: " ++
                  (RunCommandInDir E nginxDir "git" ["cherry-pick", "--continue"]
                    (ActOnFiles E nginxDir (findHardenedCommit err.Error hardenedCommits).Action
                      (findHardenedCommit err.Error hardenedCommits).Files r.2).2).1.1
                  ++ ": " ++ err3.Error)),
                  (RunCommandInDir E nginxDir "git" ["cherry-pick", "--continue"]
                    (ActOnFiles E nginxDir (findHardenedCommit err.Error hardenedCommits).Action
                      (findHardenedCommit err.Error hardenedCommits).Files r.2).2).2)
              | none => cherryPickLoop E p n
                  (RunCommandInDir E nginxDir "git" ["cherry-pick", "--continue"]
                    (ActOnFiles E nginxDir (findHardenedCommit err.Error hardenedCommits).Action
                      (findHardenedCommit err.Error hardenedCommits).Files r.2).2).2
          else (some err, r.2)
        | none => cherryPickLoop E p n r.2 := by
      rw [cherryPickLoop]
      simp only [formatInt_natCast, hr]
    rw [hunfold]
    cases hr12 : r.1.2 with
    | none =>
      rw [hr12] at herr0
      obtain ⟨new, hnew, hlast, _⟩ := ih r.2
      refine ⟨call0 :: new, ?_, ⟨?_, hlast⟩, hhd new⟩
      · simp only [hnew, htr, List.append_assoc, List.singleton_append]
      · intro _ e he
        rw [herr0] at he
        cases he
    | some err =>
      rw [hr12] at herr0
      simp only
      by_cases hm : (findHardenedCommit err.Error hardenedCommits).Message = ""
      · refine ⟨[call0], ?_, ⟨?_, trivial⟩, hhd []⟩
        · simp [hm, htr]
        · intro _ e he _
          rw [herr0] at he
          cases he
          simp [hm]
      · have hnot : ∀ e, call0.err = some e → ¬ Unmatched e := by
          intro e he hu
          rw [herr0] at he
          cases he
          exact hm (findHardenedCommit_unmatched _ hu)
        have hhead : ∀ (res : Option GoError) (rest : List Call),
            UnmatchedPickIsLast res rest → UnmatchedPickIsLast res (call0 :: rest) :=
          fun res rest hrest => ⟨fun _ e he hu => absurd hu (hnot e he), hrest⟩
        obtain ⟨ts, hts, htwo⟩ := ActOnFiles_trace E nginxDir
          (findHardenedCommit err.Error hardenedCommits).Action
          (findHardenedCommit err.Error hardenedCommits).Files r.2
        have hnp : ∀ c ∈ ts, ¬ IsPick c := fun c hc => not_isPick_of_two_args c (htwo c hc)
        generalize ActOnFiles E nginxDir (findHardenedCommit err.Error hardenedCommits).Action
          (findHardenedCommit err.Error hardenedCommits).Files r.2 = a at hts
        simp only [hm, ne_eq, not_false_eq_true, if_true]
        cases ha : a.1 with
        | some err2 =>
          refine ⟨call0 :: ts, ?_, ?_, hhd ts⟩
          · simp [hts, htr]
          · apply hhead
            have := unmatchedPickIsLast_append (some err2) ts [] hnp trivial
            simpa using this
        | none =>
          have hctr := RunCommandInDir_trace E nginxDir "git" ["cherry-pick", "--continue"] a.2
          have hcnp : ¬ IsPick (callOf E nginxDir "git" ["cherry-pick", "--continue"] a.2) :=
            not_isPick_of_two_args _ rfl
          generalize callOf E nginxDir "git" ["cherry-pick", "--continue"] a.2 = callc
            at hctr hcnp
          generalize RunCommandInDir E nginxDir "git" ["cherry-pick", "--continue"] a.2 = c
            at hctr
          have hnp2 : ∀ x ∈ ts ++ [callc], ¬ IsPick x := by
            intro x hx
            rcases List.mem_append.mp hx with hx | hx
            · exact hnp x hx
            · simp at hx; subst hx; exact hcnp
          cases hc12 : c.1.2 with
          | some err3 =>
            refine ⟨call0 :: (ts ++ [callc]), ?_, ?_, hhd _⟩
            · simp [hctr, hts, htr]
            · apply hhead
              have := unmatchedPickIsLast_append
                (some (GoError.text ("unable to cherry-pick: " ++ c.1.1 ++ ": " ++ err3.Error)))
                (ts ++ [callc]) [] hnp2 trivial
              simpa using this
          | none =>
            obtain ⟨new, hnew, hlast, _⟩ := ih c.2
            refine ⟨call0 :: ((ts ++ [callc]) ++ new), ?_, ?_, hhd _⟩
            · simp [hnew, hctr, hts, htr]
            · apply hhead
              exact unmatchedPickIsLast_append _ (ts ++ [callc]) new hnp2 hlast

theorem cherryPickLoop_all_succeed {σ : Type} (E : Exec σ) (p : String) (n : Nat) :
    ∀ (s : Sys σ) (calls : List Call),
    (cherryPickLoop E p n s).2.trace = s.trace ++ calls →
    (∀ c ∈ calls, IsPick c → c.err = none) →
    (cherryPickLoop E p n s).1 = none ∧
      calls.map Call.argv = (List.range n).reverse.map
        (fun i => ["git", "cherry-pick", "-Xtheirs", p ++ "~" ++ Nat.repr i]) ∧
      ∀ c ∈ calls, c.dir = nginxDir ∧ c.err = none := by
  induction n with
  | zero =>
    intro s calls htr _
    have : calls = [] := by
      have h : s.trace ++ calls = s.trace ++ [] := by simpa [cherryPickLoop] using htr.symm
      exact List.append_cancel_left h
    subst this
    exact ⟨rfl, rfl, by simp⟩
  | succ n ih =>
    intro s calls htr hok
    obtain ⟨new, hnew, _, hhead⟩ := cherryPickLoop_unmatched E p (n + 1) s
    obtain ⟨rest, hrest⟩ := hhead n rfl
    have hcalls : calls = callOf E nginxDir "git"
        ["cherry-pick", "-Xtheirs", p ++ "~" ++ Nat.repr n] s :: rest := by
      rw [← hrest]
      exact List.append_cancel_left (htr.symm.trans hnew)
    have hrun : (RunCommandInDir E nginxDir "git"
        ["cherry-pick", "-Xtheirs", p ++ "~" ++ Nat.repr n] s).1.2 = none :=
      hok _ (by rw [hcalls]; simp) (isPick_callOf_pick E _ s)
    have hstep : cherryPickLoop E p (n + 1) s = cherryPickLoop E p n
        (RunCommandInDir E nginxDir "git"
          ["cherry-pick", "-Xtheirs", p ++ "~" ++ Nat.repr n] s).2 := by
      rw [cherryPickLoop]
      simp only [formatInt_natCast, hrun]
    have htr' : (cherryPickLoop E p n (RunCommandInDir E nginxDir "git"
        ["cherry-pick", "-Xtheirs", p ++ "~" ++ Nat.repr n] s).2).2.trace
        = (RunCommandInDir E nginxDir "git"
          ["cherry-pick", "-Xtheirs", p ++ "~" ++ Nat.repr n] s).2.trace ++ rest := by
      rw [← hstep, htr, hcalls, RunCommandInDir_trace]
      simp
    obtain ⟨hres, hargv, hall⟩ := ih _ rest htr'
      (fun c hc => hok c (by rw [hcalls]; simp [hc]))
    rw [hstep]
    refine ⟨hres, ?_, ?_⟩
    · rw [hcalls]
      simp [List.range_succ, hargv, Call.argv, callOf]
    · intro c hc
      rw [hcalls] at hc
      rcases List.mem_cons.mp hc with rfl | hc
      · exact ⟨rfl, hrun⟩
      · exact hall c hc

/-- C6: for every previous-branch name `p`, in a run of `cherryPickHardened p`
in which every cherry-pick command succeeds, exactly `N = 10` commands are
issued (`N` the length of the patch series), the `k`-th being
`git cherry-pick -Xtheirs p~(N-1-k)`, from `p~9` down to `p~0`, and no error
is returned. -/
theorem cherryPickHardened_all_succeed {σ : Type} (E : Exec σ) (p : String) (s : Sys σ)
    (calls : List Call)
    (htrace : (cherryPickHardened E p s).2.trace = s.trace ++ calls)
    (hok : ∀ c ∈ calls, IsPick c → c.err = none) :
    hardenedCommits.length = 10 ∧
    (cherryPickHardened E p s).1 = none ∧
    calls.length = 10 ∧
    calls.map Call.argv = (List.range 10).map
      (fun k => ["git", "cherry-pick", "-Xtheirs", p ++ "~" ++ Nat.repr (10 - 1 - k)]) ∧
    ∀ c ∈ calls, c.dir = nginxDir ∧ c.err = none := by
  obtain ⟨hres, hargv, hall⟩ :=
    cherryPickLoop_all_succeed E p hardenedCommits.length s calls htrace hok
  refine ⟨rfl, hres, ?_, ?_, hall⟩
  · have := congrArg List.length hargv
    simpa [hardenedCommits] using this
  · rw [hargv]; rfl

set_option maxRecDepth 100000 in
theorem cherryPickHardened_all_succeed_witness :
    (cherryPickHardened (scriptExec allSucceed) "hardened-nginx-1.8.x-fix" ⟨(), []⟩).1 = none ∧
    (cherryPickHardened (scriptExec allSucceed) "hardened-nginx-1.8.x-fix" ⟨(), []⟩).2.trace.map
        Call.argv
      = (List.range 10).map (fun k => ["git", "cherry-pick", "-Xtheirs",
          "hardened-nginx-1.8.x-fix" ++ "~" ++ Nat.repr (10 - 1 - k)]) :=
  have h := cherryPickHardened_all_succeed (scriptExec allSucceed) "hardened-nginx-1.8.x-fix"
    ⟨(), []⟩
    (cherryPickHardened (scriptExec allSucceed) "hardened-nginx-1.8.x-fix" ⟨(), []⟩).2.trace
    (by simp)
    (fun c hc _ => (by decide : ∀ c ∈ (cherryPickHardened (scriptExec allSucceed)
      "hardened-nginx-1.8.x-fix" ⟨(), []⟩).2.trace, c.err = none) c hc)
  ⟨h.2.1, h.2.2.2.1⟩

/-- C7: in every run of `cherryPickHardened`, a pick
`git cherry-pick -Xtheirs <commit>` that fails with an error whose text
contains none of the patch-series messages is the last command issued, and the
function returns exactly that error value, its text unaltered. -/
theorem cherryPickHardened_unmatched_fatal {σ : Type} (E : Exec σ) (p : String) (s : Sys σ)
    (pre post : List Call) (c : Call) (e : GoError)
    (htrace : (cherryPickHardened E p s).2.trace = s.trace ++ (pre ++ c :: post))
    (hpick : IsPick c) (herr : c.err = some e) (hun : Unmatched e) :
    (cherryPickHardened E p s).1 = some e ∧ post = [] := by
  obtain ⟨new, hnew, hlast, _⟩ := cherryPickLoop_unmatched E p hardenedCommits.length s
  have hnew2 : (cherryPickHardened E p s).2.trace = s.trace ++ new := hnew
  rw [hnew2] at htrace
  have heq := List.append_cancel_left htrace
  have := unmatchedPickIsLast_split _ pre new c post e hlast heq hpick herr hun
  exact ⟨this.2, this.1⟩

set_option maxRecDepth 100000 in
theorem cherryPickHardened_unmatched_fatal_witness :
    (cherryPickHardened (scriptExec (allFail "fatal: bad revision")) "prev" ⟨(), []⟩).1
      = some (.text "failed to run gitcherry-pick -Xtheirs prev~9: fatal: bad revision") ∧
    (cherryPickHardened (scriptExec (allFail "fatal: bad revision")) "prev" ⟨(), []⟩).2.trace
      = [⟨nginxDir, "git", ["cherry-pick", "-Xtheirs", "prev~9"], "",
          some (.text "failed to run gitcherry-pick -Xtheirs prev~9: fatal: bad revision")⟩] :=
  ⟨(cherryPickHardened_unmatched_fatal (scriptExec (allFail "fatal: bad revision")) "prev"
      ⟨(), []⟩ [] []
      ⟨nginxDir, "git", ["cherry-pick", "-Xtheirs", "prev~9"], "",
        some (.text "failed to run gitcherry-pick -Xtheirs prev~9: fatal: bad revision")⟩
      (.text "failed to run gitcherry-pick -Xtheirs prev~9: fatal: bad revision")
      (by decide) ⟨rfl, "prev~9", rfl⟩ rfl (by unfold Unmatched; decide)).1,
    by decide⟩

/-! ## Branch resolution -/

theorem getLastHardenedBranch_defined (tag b : String) (hb : getHardenedBranch tag = .ok b) :
    ∃ last : String, getLastHardenedBranch tag = .ok last := by
  rcases findSubmatch_cases tag.data with h | ⟨pre, X, c, Y, d, Z, post, _, _, _, _, _, _, hg⟩
  · simp [getHardenedBranch, FindStringSubmatch, h, index, bind, Except.bind] at hb
  · cases hat : Atoi (String.mk Y) with
    | error e =>
      exact ⟨"", by simp [getLastHardenedBranch, FindStringSubmatch, hg, index, bind, Except.bind,
        pure, Except.pure, hat]⟩
    | ok v =>
      exact ⟨_, by simp [getLastHardenedBranch, FindStringSubmatch, hg, index, bind, Except.bind,
        pure, Except.pure, hat]; rfl⟩

theorem CheckoutRemoteBranch_trace {σ : Type} (E : Exec σ) (dir remote branchName : String)
    (s : Sys σ) :
    (CheckoutRemoteBranch E dir remote branchName s).2.trace
      = s.trace ++ [callOf E dir "git" ["checkout", "--track", remote ++ "/" ++ branchName] s] := by
  unfold CheckoutRemoteBranch
  simp only
  split
  · split <;> exact RunCommandInDir_trace _ _ _ _ _
  · exact RunCommandInDir_trace _ _ _ _ _

/-- C8: with `b = getHardenedBranch tag` and the stale reference removed
without error, `switchToHardenedBranch` checks out `user/b`; on success it
returns `("", nil)` with no further checkout; when that checkout reports
`ErrRemotebranchNotFound` it makes exactly one more checkout, of
`user/previous` when `previous` is non-empty and of
`user/getLastHardenedBranch tag` otherwise, returning `(b, nil)` when it
succeeds and a non-nil error with empty name when it fails; any other error of
the first checkout is returned with no further checkout. -/
theorem switchToHardenedBranch_resolution {σ : Type} (E : Exec σ)
    (user tag previous b : String) (s : Sys σ)
    (hb : getHardenedBranch tag = .ok b)
    (hrm : (E.removeReference (CleanRepo E nginxDir s).2.world ("refs/heads/" ++ b)).1 = none) :
    ∃ last : String, getLastHardenedBranch tag = .ok last ∧
      let s2 : Sys σ :=
        ⟨(E.removeReference (CleanRepo E nginxDir s).2.world ("refs/heads/" ++ b)).2,
          (CleanRepo E nginxDir s).2.trace⟩
      let c1 := CheckoutRemoteBranch E nginxDir user b s2
      let fb := if previous ≠ "" then previous else last
      let c2 := CheckoutRemoteBranch E nginxDir user fb c1.2
      let out := switchToHardenedBranch E user tag previous s
      c1.2.trace = s2.trace ++ [callOf E nginxDir "git" ["checkout", "--track", user ++ "/" ++ b] s2] ∧
      c2.2.trace = c1.2.trace
        ++ [callOf E nginxDir "git" ["checkout", "--track", user ++ "/" ++ fb] c1.2] ∧
      (c1.1 = none → out = (.ok ("", none), c1.2)) ∧
      (c1.1 = some .ErrRemotebranchNotFound →
        out.2 = c2.2 ∧ (c2.1 = none → out.1 = .ok (b, none)) ∧
        (∀ e2, c2.1 = some e2 → ∃ e, out.1 = .ok ("", some e))) ∧
      (∀ e, c1.1 = some e → e ≠ .ErrRemotebranchNotFound → out = (.ok ("", some e), c1.2)) := by
  obtain ⟨last, hlast⟩ := getLastHardenedBranch_defined tag b hb
  refine ⟨last, hlast, ?_⟩
  intro s2 c1 fb c2 out
  refine ⟨CheckoutRemoteBranch_trace _ _ _ _ _, CheckoutRemoteBranch_trace _ _ _ _ _, ?_, ?_, ?_⟩
  · intro h1
    show switchToHardenedBranch E user tag previous s = _
    unfold switchToHardenedBranch
    simp only [hb, hrm]
    have h1' : (CheckoutRemoteBranch E nginxDir user b s2).1 = none := h1
    simp only [s2] at h1'
    simp only [h1']
  · intro h1
    have h1' : (CheckoutRemoteBranch E nginxDir user b s2).1 = some .ErrRemotebranchNotFound := h1
    simp only [s2] at h1'
    have hlatest : (if previous ≠ "" then Except.ok previous else getLastHardenedBranch tag)
        = (Except.ok fb : Except Panic String) := by
      simp only [fb]
      by_cases hp : previous = ""
      · simp [hp, hlast]
      · simp [hp]
    have hout : out = (match c2.1 with
        | some err2 => (.ok ("", some (.text ("unable to find " ++ fb ++ ": " ++ err2.Error))), c2.2)
        | none => (.ok (b, none), c2.2)) := by
      show switchToHardenedBranch E user tag previous s = _
      unfold switchToHardenedBranch
      simp only [hb, hrm, h1', ne_eq, not_true_eq_false, if_false, hlatest]
    rw [hout]
    refine ⟨?_, ?_, ?_⟩
    · cases c2.1 <;> rfl
    · intro h2; rw [h2]
    · intro e2 h2; rw [h2]; exact ⟨_, rfl⟩
  · intro e h1 hne
    have h1' : (CheckoutRemoteBranch E nginxDir user b s2).1 = some e := h1
    simp only [s2] at h1'
    show switchToHardenedBranch E user tag previous s = _
    unfold switchToHardenedBranch
    simp only [hb, hrm, h1', ne_eq, hne, not_false_eq_true, if_true]

set_option maxRecDepth 100000 in
theorem switchToHardenedBranch_resolution_witness :
    (switchToHardenedBranch (scriptExec (missingBranch "alice" "hardened-nginx-1.9.x-fix"))
        "alice" "v1.9.3" "" ⟨(), []⟩).1 = .ok ("hardened-nginx-1.9.x-fix", none) ∧
    (switchToHardenedBranch (scriptExec (missingBranch "alice" "hardened-nginx-1.9.x-fix"))
        "alice" "v1.9.3" "" ⟨(), []⟩).2.trace.map Call.argv
      = [["git", "clean", "-xfd"], ["git", "checkout", "."],
         ["git", "checkout", "--track", "alice/hardened-nginx-1.9.x-fix"],
         ["git", "checkout", "--track", "alice/hardened-nginx-1.8.x-fix"]] := by
  obtain ⟨last, hlast, h⟩ := switchToHardenedBranch_resolution
    (scriptExec (missingBranch "alice" "hardened-nginx-1.9.x-fix"))
    "alice" "v1.9.3" "" "hardened-nginx-1.9.x-fix" ⟨(), []⟩ (by decide) rfl
  have hl : getLastHardenedBranch "v1.9.3" = .ok "hardened-nginx-1.8.x-fix" := by decide
  rw [hl] at hlast
  cases hlast
  exact ⟨(h.2.2.2.1 (by decide)).2.1 (by decide), by decide⟩

/-! ## Rebase onto the upstream tag -/

theorem RemoveFiles_argv {σ : Type} (E : Exec σ) (dir : String) (files : List String) :
    ∀ s : Sys σ, ∃ k, k ≤ files.length ∧
      (RemoveFiles E dir files s).2.trace.map Call.argv
        = s.trace.map Call.argv ++ (files.take k).map (fun f => ["git", "rm", f]) ∧
      ((RemoveFiles E dir files s).1 = none → k = files.length) := by
  induction files with
  | nil => intro s; exact ⟨0, by simp, by simp [RemoveFiles], fun _ => rfl⟩
  | cons file files ih =>
    intro s
    cases hr : (RunCommandInDir E dir "git" ["rm", file] s).1.2 with
    | some err =>
      refine ⟨1, by simp, ?_, ?_⟩
      · rw [RemoveFiles]
        simp only [hr]
        rw [RunCommandInDir_trace]
        simp [Call.argv, callOf]
      · rw [RemoveFiles]
        simp only [hr]
        intro h
        cases h
    | none =>
      obtain ⟨k, hk, htr, hnone⟩ := ih (RunCommandInDir E dir "git" ["rm", file] s).2
      refine ⟨k + 1, by simpa using hk, ?_, ?_⟩
      · rw [RemoveFiles]
        simp only [hr]
        rw [htr, RunCommandInDir_trace]
        simp [Call.argv, callOf]
      · rw [RemoveFiles]
        simp only [hr]
        intro h
        simp [hnone h]

theorem rebaseUpstream_eq {σ : Type} (E : Exec σ) (tag : String) (s : Sys σ)
    (st : Option GoError × Sys σ)
    (hst : st = match (RunCommandInDir E nginxDir "git"
          ["rebase", "--onto", tag, "-Xtheirs", "HEAD~10"] s).1.2 with
        | some err =>
          if Contains err.Error "Adding drone and build artifacts" then
            RemoveFiles E nginxDir
              [".github/workflows/ci.yaml", ".github/workflows/depreview.yaml"]
              (RunCommandInDir E nginxDir "git"
                ["rebase", "--onto", tag, "-Xtheirs", "HEAD~10"] s).2
          else (some err, (RunCommandInDir E nginxDir "git"
            ["rebase", "--onto", tag, "-Xtheirs", "HEAD~10"] s).2)
        | none => (none, (RunCommandInDir E nginxDir "git"
            ["rebase", "--onto", tag, "-Xtheirs", "HEAD~10"] s).2)) :
    rebaseUpstream E tag s =
      match st.1 with
      | some err => (.ok (some err), st.2)
      | none => rebaseRest E tag st.2 := by
  subst hst
  rfl

theorem rebaseRest_trace {σ : Type} (E : Exec σ) (tag : String) (s1 : Sys σ) :
    ∃ rest : List Call, (rebaseRest E tag s1).2.trace
      = s1.trace ++ callOf E nginxDir "git" ["rebase", "--continue"] s1 :: rest := by
  have h2 := RunCommandInDir_trace E nginxDir "git" ["rebase", "--continue"] s1
  unfold rebaseRest
  generalize RunCommandInDir E nginxDir "git" ["rebase", "--continue"] s1 = r2 at h2
  generalize callOf E nginxDir "git" ["rebase", "--continue"] s1 = call2 at h2
  have hstep2 : ∀ st : Option GoError × Sys σ, (∃ ts, st.2.trace = r2.2.trace ++ ts) →
      ∃ rest, (match st.1 with
        | some err => ((Except.ok (some err) : Except Panic (Option GoError)), st.2)
        | none =>
          match (RunCommandInDir E nginxDir "git" ["rebase", "--continue"] st.2).1.2 with
          | some err2 => (.ok (some err2),
              (RunCommandInDir E nginxDir "git" ["rebase", "--continue"] st.2).2)
          | none =>
            match getHardenedBranch tag with
            | .error p => (.error p,
                (RunCommandInDir E nginxDir "git" ["rebase", "--continue"] st.2).2)
            | .ok _ => (.ok none,
                (RunCommandInDir E nginxDir "git" ["rebase", "--continue"] st.2).2)).2.trace
        = s1.trace ++ call2 :: rest := by
    rintro st ⟨ts, hts⟩
    have h3 := RunCommandInDir_trace E nginxDir "git" ["rebase", "--continue"] st.2
    cases st.1 with
    | some err => exact ⟨ts, by simp [hts, h2]⟩
    | none =>
      refine ⟨ts ++ [callOf E nginxDir "git" ["rebase", "--continue"] st.2], ?_⟩
      simp only
      split
      · simp [h3, hts, h2]
      · split <;> simp [h3, hts, h2]
  simp only
  apply hstep2
  split
  · split
    · obtain ⟨ts, hts, _⟩ := RemoveFiles_trace E nginxDir ["images/nginx/rootfs/Dockerfile"] r2.2
      exact ⟨ts, hts⟩
    · exact ⟨[], by simp⟩
  · exact ⟨[], by simp⟩

theorem rebaseUpstream_unmatched {σ : Type} (E : Exec σ) (tag : String) (s : Sys σ)
    (e : GoError)
    (he : (RunCommandInDir E nginxDir "git"
      ["rebase", "--onto", tag, "-Xtheirs", "HEAD~10"] s).1.2 = some e)
    (hno : ¬ IsSubstring "Adding drone and build artifacts" e.Error) :
    rebaseUpstream E tag s = (.ok (some e), (RunCommandInDir E nginxDir "git"
      ["rebase", "--onto", tag, "-Xtheirs", "HEAD~10"] s).2) := by
  have hc : Contains e.Error "Adding drone and build artifacts" = false := by
    rw [← Bool.not_eq_true, contains_iff]; exact hno
  rw [rebaseUpstream_eq E tag s _ rfl]
  simp only [he, hc, Bool.false_eq_true, if_false]

theorem rebaseUpstream_matched {σ : Type} (E : Exec σ) (tag : String) (s : Sys σ)
    (e : GoError)
    (he : (RunCommandInDir E nginxDir "git"
      ["rebase", "--onto", tag, "-Xtheirs", "HEAD~10"] s).1.2 = some e)
    (hyes : IsSubstring "Adding drone and build artifacts" e.Error) :
    rebaseUpstream E tag s =
      match (RemoveFiles E nginxDir
          [".github/workflows/ci.yaml", ".github/workflows/depreview.yaml"]
          (RunCommandInDir E nginxDir "git"
            ["rebase", "--onto", tag, "-Xtheirs", "HEAD~10"] s).2).1 with
      | some err => (.ok (some err), (RemoveFiles E nginxDir
          [".github/workflows/ci.yaml", ".github/workflows/depreview.yaml"]
          (RunCommandInDir E nginxDir "git"
            ["rebase", "--onto", tag, "-Xtheirs", "HEAD~10"] s).2).2)
      | none => rebaseRest E tag (RemoveFiles E nginxDir
          [".github/workflows/ci.yaml", ".github/workflows/depreview.yaml"]
          (RunCommandInDir E nginxDir "git"
            ["rebase", "--onto", tag, "-Xtheirs", "HEAD~10"] s).2).2 := by
  have hc : Contains e.Error "Adding drone and build artifacts" = true :=
    (contains_iff _ _).2 hyes
  rw [rebaseUpstream_eq E tag s _ rfl]
  simp only [he, hc, if_true]

theorem rebaseUpstream_clean {σ : Type} (E : Exec σ) (tag : String) (s : Sys σ)
    (he : (RunCommandInDir E nginxDir "git"
      ["rebase", "--onto", tag, "-Xtheirs", "HEAD~10"] s).1.2 = none) :
    rebaseUpstream E tag s = rebaseRest E tag (RunCommandInDir E nginxDir "git"
      ["rebase", "--onto", tag, "-Xtheirs", "HEAD~10"] s).2 := by
  rw [rebaseUpstream_eq E tag s _ rfl]
  simp only [he]

/-- C9: for every tag, `rebaseUpstream tag` first issues
`git rebase --onto <tag> -Xtheirs HEAD~10`, 10 being the length of the patch
series. If that command fails with a text that does not contain the first
entry's message, that error is returned unaltered and nothing more is issued.
If it fails with a text containing that message, the remediation of the table
entry `hardenedCommits[0]` is applied (`git rm` on its files, in order,
stopping at the first `git rm` that fails, whose error is then returned), and
only after all of them succeeded `git rebase --continue` is issued. -/
theorem rebaseUpstream_first_conflict {σ : Type} (E : Exec σ) (tag : String) (s : Sys σ) :
    let r1 := RunCommandInDir E nginxDir "git" ["rebase", "--onto", tag, "-Xtheirs", "HEAD~10"] s
    let a := ActOnFiles E nginxDir hardenedCommits[0].Action hardenedCommits[0].Files r1.2
    let out := rebaseUpstream E tag s
    hardenedCommits.length = 10 ∧
    (∃ rest, out.2.trace = s.trace ++
      callOf E nginxDir "git" ["rebase", "--onto", tag, "-Xtheirs", "HEAD~10"] s :: rest) ∧
    (∀ e, r1.1.2 = some e → ¬ IsSubstring hardenedCommits[0].Message e.Error →
      out = (.ok (some e), r1.2)) ∧
    (∀ e, r1.1.2 = some e → IsSubstring hardenedCommits[0].Message e.Error →
      hardenedCommits[0].Action = "remove" ∧
      (∃ k, k ≤ hardenedCommits[0].Files.length ∧
        a.2.trace.map Call.argv = r1.2.trace.map Call.argv
          ++ (hardenedCommits[0].Files.take k).map (fun f => ["git", "rm", f]) ∧
        (a.1 = none → k = hardenedCommits[0].Files.length)) ∧
      (∀ e2, a.1 = some e2 → out = (.ok (some e2), a.2)) ∧
      (a.1 = none → ∃ rest, out.2.trace = a.2.trace ++
        callOf E nginxDir "git" ["rebase", "--continue"] a.2 :: rest)) := by
  intro r1 a out
  have ha : a = RemoveFiles E nginxDir
      [".github/workflows/ci.yaml", ".github/workflows/depreview.yaml"] r1.2 := rfl
  have htr1 : r1.2.trace = s.trace ++
      [callOf E nginxDir "git" ["rebase", "--onto", tag, "-Xtheirs", "HEAD~10"] s] :=
    RunCommandInDir_trace _ _ _ _ _
  have hmatched : ∀ e, r1.1.2 = some e → IsSubstring hardenedCommits[0].Message e.Error →
      (∀ e2, a.1 = some e2 → out = (.ok (some e2), a.2)) ∧
      (a.1 = none → ∃ rest, out.2.trace = a.2.trace ++
        callOf E nginxDir "git" ["rebase", "--continue"] a.2 :: rest) := by
    intro e he hyes
    have hout := rebaseUpstream_matched E tag s e he hyes
    constructor
    · intro e2 h2
      rw [ha] at h2
      show rebaseUpstream E tag s = _
      rw [hout, ha]
      simp only [r1] at h2 ⊢
      simp only [h2]
    · intro h2
      rw [ha] at h2
      simp only [r1] at h2
      have : out = rebaseRest E tag a.2 := by
        show rebaseUpstream E tag s = _
        rw [hout, ha]
        simp only [h2]
      rw [this]
      exact rebaseRest_trace E tag a.2
  refine ⟨rfl, ?_, ?_, ?_⟩
  · cases he : r1.1.2 with
    | none =>
      obtain ⟨rest, hrest⟩ := rebaseRest_trace E tag r1.2
      refine ⟨callOf E nginxDir "git" ["rebase", "--continue"] r1.2 :: rest, ?_⟩
      show (rebaseUpstream E tag s).2.trace = _
      rw [rebaseUpstream_clean E tag s he, hrest, htr1]
      simp
    | some e =>
      by_cases hyes : IsSubstring hardenedCommits[0].Message e.Error
      · obtain ⟨hsome, hnone⟩ := hmatched e he hyes
        obtain ⟨ts, hts, _⟩ := RemoveFiles_trace E nginxDir
          [".github/workflows/ci.yaml", ".github/workflows/depreview.yaml"] r1.2
        rw [← ha] at hts
        cases h2 : a.1 with
        | some e2 =>
          refine ⟨ts, ?_⟩
          rw [hsome e2 h2]
          simp [hts, htr1]
        | none =>
          obtain ⟨rest, hrest⟩ := hnone h2
          refine ⟨ts ++ callOf E nginxDir "git" ["rebase", "--continue"] a.2 :: rest, ?_⟩
          rw [hrest, hts, htr1]
          simp
      · refine ⟨[], ?_⟩
        show (rebaseUpstream E tag s).2.trace = _
        rw [rebaseUpstream_unmatched E tag s e he hyes]
        simpa using htr1
  · intro e he hno
    exact rebaseUpstream_unmatched E tag s e he hno
  · intro e he hyes
    refine ⟨rfl, ?_, hmatched e he hyes⟩
    obtain ⟨k, hk, htr, hnone⟩ := RemoveFiles_argv E nginxDir
      [".github/workflows/ci.yaml", ".github/workflows/depreview.yaml"] r1.2
    exact ⟨k, hk, by rw [ha]; exact htr, by rw [ha]; exact hnone⟩

set_option maxRecDepth 100000 in
theorem rebaseUpstream_first_conflict_witness :
    (rebaseUpstream (scriptExec firstPatchConflict) "controller-v1.9.3" ⟨(), []⟩).2.trace.map
        Call.argv
      = [["git", "rebase", "--onto", "controller-v1.9.3", "-Xtheirs", "HEAD~10"],
         ["git", "rm", ".github/workflows/ci.yaml"],
         ["git", "rm", ".github/workflows/depreview.yaml"],
         ["git", "rebase", "--continue"],
         ["git", "rebase", "--continue"]] ∧
    (rebaseUpstream (scriptExec (allFail "fatal: invalid upstream")) "v1.9.3" ⟨(), []⟩)
      = (.ok (some (.text ("failed to run gitrebase --onto v1.9.3 -Xtheirs HEAD~10: "
          ++ "fatal: invalid upstream"))),
        (RunCommandInDir (scriptExec (allFail "fatal: invalid upstream")) nginxDir "git"
          ["rebase", "--onto", "v1.9.3", "-Xtheirs", "HEAD~10"] ⟨(), []⟩).2) :=
  ⟨by decide,
    (rebaseUpstream_first_conflict (scriptExec (allFail "fatal: invalid upstream")) "v1.9.3"
      ⟨(), []⟩).2.2.1 _ rfl (by decide)⟩

/-! ## Latest tag -/

theorem forEachTag_cons_skip (filter : String) (t : TagRef) (rest : List TagRef) (c : Commit)
    (st : Option Commit × Option TagRef) (hc : t.commit = .ok c)
    (hm : ¬ IsSubstring filter t.Name) :
    forEachTag filter (t :: rest) st = forEachTag filter rest st := by
  have hf : Contains t.Name filter = false := by
    rw [← Bool.not_eq_true, contains_iff]; exact hm
  rw [forEachTag]
  simp [hc, hf]

theorem forEachTag_cons_first (filter : String) (t : TagRef) (rest : List TagRef) (c : Commit)
    (hc : t.commit = .ok c) (hm : IsSubstring filter t.Name) :
    forEachTag filter (t :: rest) (none, none) = forEachTag filter rest (some c, some t) := by
  have hf : Contains t.Name filter = true := (contains_iff _ _).2 hm
  rw [forEachTag]
  simp [hc, hf]

theorem forEachTag_cons_later (filter : String) (t : TagRef) (rest : List TagRef) (c c0 : Commit)
    (t0 : TagRef) (hc : t.commit = .ok c) (hm : IsSubstring filter t.Name)
    (hlt : c0.When < c.When) :
    forEachTag filter (t :: rest) (some c0, some t0)
      = forEachTag filter rest (some c, some t) := by
  have hf : Contains t.Name filter = true := (contains_iff _ _).2 hm
  rw [forEachTag]
  simp [hc, hf, hlt]

theorem forEachTag_cons_keep (filter : String) (t : TagRef) (rest : List TagRef) (c c0 : Commit)
    (t0 : TagRef) (hc : t.commit = .ok c) (hle : c.When ≤ c0.When) :
    forEachTag filter (t :: rest) (some c0, some t0)
      = forEachTag filter rest (some c0, some t0) := by
  by_cases hm : IsSubstring filter t.Name
  · have hf : Contains t.Name filter = true := (contains_iff _ _).2 hm
    rw [forEachTag]
    simp [hc, hf, not_lt.mpr hle]
  · exact forEachTag_cons_skip filter t rest c _ hc hm

theorem forEachTag_from_some (filter : String) (l : List TagRef) :
    ∀ (c0 : Commit) (t0 : TagRef), (∀ t ∈ l, ∃ c, t.commit = .ok c) →
    (forEachTag filter l (some c0, some t0) = .ok (none, (some c0, some t0)) ∧
      ∀ u ∈ l, IsSubstring filter u.Name → ∀ cu, u.commit = .ok cu → cu.When ≤ c0.When) ∨
    (∃ pre t post c, l = pre ++ t :: post ∧ t.commit = .ok c ∧ IsSubstring filter t.Name ∧
      forEachTag filter l (some c0, some t0) = .ok (none, (some c, some t)) ∧
      c0.When < c.When ∧
      (∀ u ∈ pre, IsSubstring filter u.Name → ∀ cu, u.commit = .ok cu → cu.When < c.When) ∧
      (∀ u ∈ post, IsSubstring filter u.Name → ∀ cu, u.commit = .ok cu → cu.When ≤ c.When)) := by
  induction l with
  | nil => intro c0 t0 _; left; exact ⟨rfl, by simp⟩
  | cons h rest ih =>
    intro c0 t0 hres
    obtain ⟨ch, hch⟩ := hres h (by simp)
    have hres' : ∀ t ∈ rest, ∃ c, t.commit = .ok c := fun t ht => hres t (by simp [ht])
    have hinj : ∀ cu, h.commit = .ok cu → cu = ch := by
      intro cu hcu; rw [hch] at hcu; cases hcu; rfl
    by_cases hnew : IsSubstring filter h.Name ∧ c0.When < ch.When
    · obtain ⟨hm, hlt⟩ := hnew
      rw [forEachTag_cons_later filter h rest ch c0 t0 hch hm hlt]
      right
      rcases ih ch h hres' with ⟨hval, hle⟩ | ⟨pre, t, post, c, hl, htc, htm, hval, hlt2, hpre, hpost⟩
      · exact ⟨[], h, rest, ch, rfl, hch, hm, hval, hlt, by simp, hle⟩
      · refine ⟨h :: pre, t, post, c, by simp [hl], htc, htm, hval, lt_trans hlt hlt2, ?_, hpost⟩
        intro u hu hum cu hcu
        rcases List.mem_cons.mp hu with rfl | hu
        · rw [hinj cu hcu]; exact hlt2
        · exact hpre u hu hum cu hcu
    · have hstep : forEachTag filter (h :: rest) (some c0, some t0)
          = forEachTag filter rest (some c0, some t0) := by
        by_cases hm : IsSubstring filter h.Name
        · exact forEachTag_cons_keep filter h rest ch c0 t0 hch
            (not_lt.mp (fun hlt => hnew ⟨hm, hlt⟩))
        · exact forEachTag_cons_skip filter h rest ch _ hch hm
      have hh : IsSubstring filter h.Name → ch.When ≤ c0.When :=
        fun hm => not_lt.mp (fun hlt => hnew ⟨hm, hlt⟩)
      rw [hstep]
      rcases ih c0 t0 hres' with ⟨hval, hle⟩ | ⟨pre, t, post, c, hl, htc, htm, hval, hlt2, hpre, hpost⟩
      · left
        refine ⟨hval, ?_⟩
        intro u hu hum cu hcu
        rcases List.mem_cons.mp hu with rfl | hu
        · rw [hinj cu hcu]; exact hh hum
        · exact hle u hu hum cu hcu
      · right
        refine ⟨h :: pre, t, post, c, by simp [hl], htc, htm, hval, hlt2, ?_, hpost⟩
        intro u hu hum cu hcu
        rcases List.mem_cons.mp hu with rfl | hu
        · rw [hinj cu hcu]; exact lt_of_le_of_lt (hh hum) hlt2
        · exact hpre u hu hum cu hcu

theorem forEachTag_from_none (filter : String) (l : List TagRef)
    (hres : ∀ t ∈ l, ∃ c, t.commit = .ok c) :
    (forEachTag filter l (none, none) = .ok (none, (none, none)) ∧
      ∀ u ∈ l, ¬ IsSubstring filter u.Name) ∨
    (∃ pre t post c, l = pre ++ t :: post ∧ t.commit = .ok c ∧ IsSubstring filter t.Name ∧
      forEachTag filter l (none, none) = .ok (none, (some c, some t)) ∧
      (∀ u ∈ pre, IsSubstring filter u.Name → ∀ cu, u.commit = .ok cu → cu.When < c.When) ∧
      (∀ u ∈ post, IsSubstring filter u.Name → ∀ cu, u.commit = .ok cu → cu.When ≤ c.When)) := by
  induction l with
  | nil => left; exact ⟨rfl, by simp⟩
  | cons h rest ih =>
    obtain ⟨ch, hch⟩ := hres h (by simp)
    have hres' : ∀ t ∈ rest, ∃ c, t.commit = .ok c := fun t ht => hres t (by simp [ht])
    have hinj : ∀ cu, h.commit = .ok cu → cu = ch := by
      intro cu hcu; rw [hch] at hcu; cases hcu; rfl
    by_cases hm : IsSubstring filter h.Name
    · rw [forEachTag_cons_first filter h rest ch hch hm]
      right
      rcases forEachTag_from_some filter rest ch h hres' with
        ⟨hval, hle⟩ | ⟨pre, t, post, c, hl, htc, htm, hval, hlt2, hpre, hpost⟩
      · exact ⟨[], h, rest, ch, rfl, hch, hm, hval, by simp, hle⟩
      · refine ⟨h :: pre, t, post, c, by simp [hl], htc, htm, hval, ?_, hpost⟩
        intro u hu hum cu hcu
        rcases List.mem_cons.mp hu with rfl | hu
        · rw [hinj cu hcu]; exact hlt2
        · exact hpre u hu hum cu hcu
    · rw [forEachTag_cons_skip filter h rest ch _ hch hm]
      rcases ih hres' with ⟨hval, hno⟩ | ⟨pre, t, post, c, hl, htc, htm, hval, hpre, hpost⟩
      · left
        refine ⟨hval, ?_⟩
        intro u hu
        rcases List.mem_cons.mp hu with rfl | hu
        · exact hm
        · exact hno u hu
      · right
        refine ⟨h :: pre, t, post, c, by simp [hl], htc, htm, hval, ?_, hpost⟩
        intro u hu hum cu hcu
        rcases List.mem_cons.mp hu with rfl | hu
        · exact absurd hum hm
        · exact hpre u hu hum cu hcu

theorem forEachTag_filter (filter : String) (l : List TagRef) :
    ∀ st : Option Commit × Option TagRef, (∀ t ∈ l, ∃ c, t.commit = .ok c) →
    forEachTag filter l st
      = forEachTag filter (l.filter (fun t => Contains t.Name filter)) st := by
  induction l with
  | nil => intro st _; rfl
  | cons h rest ih =>
    intro st hres
    obtain ⟨ch, hch⟩ := hres h (by simp)
    have hres' : ∀ t ∈ rest, ∃ c, t.commit = .ok c := fun t ht => hres t (by simp [ht])
    by_cases hf : Contains h.Name filter = true
    · have hfc : (h :: rest).filter (fun t => Contains t.Name filter)
          = h :: rest.filter (fun t => Contains t.Name filter) := by
        simp [List.filter_cons, hf]
      rw [hfc, forEachTag, forEachTag]
      simp only [hch, hf]
      rw [← ih _ hres', ← ih _ hres']
    · have hm : ¬ IsSubstring filter h.Name := fun hm => hf ((contains_iff _ _).2 hm)
      have hfc : (h :: rest).filter (fun t => Contains t.Name filter)
          = rest.filter (fun t => Contains t.Name filter) := by
        simp [List.filter_cons, hf]
      rw [hfc, forEachTag_cons_skip filter h rest ch st hch hm]
      exact ih st hres'

/-- C10: for every tag list in which every tag resolves to a commit and some
tag name contains the filter, `GetLatestTagFromRepo` returns the short name of
a tag `t` whose name contains the filter, whose committer time is strictly
later than that of every matching tag before it in iteration order and not
earlier than that of every matching tag after it; and the result is the same
as on the list with the non-matching tags removed. -/
theorem GetLatestTagFromRepo_latest (tags : List TagRef) (Short : String → String)
    (filter : String) (hres : ∀ t ∈ tags, ∃ c, t.commit = .ok c)
    (hex : ∃ t ∈ tags, IsSubstring filter t.Name) :
    (∃ pre t post c, tags = pre ++ t :: post ∧ t.commit = .ok c ∧ IsSubstring filter t.Name ∧
      GetLatestTagFromRepo (.ok tags) Short filter = .ok (Short t.Name, none) ∧
      (∀ u ∈ pre, IsSubstring filter u.Name → ∀ cu, u.commit = .ok cu → cu.When < c.When) ∧
      (∀ u ∈ post, IsSubstring filter u.Name → ∀ cu, u.commit = .ok cu → cu.When ≤ c.When)) ∧
    GetLatestTagFromRepo (.ok tags) Short filter
      = GetLatestTagFromRepo (.ok (tags.filter (fun t => Contains t.Name filter))) Short filter := by
  constructor
  · rcases forEachTag_from_none filter tags hres with
      ⟨_, hno⟩ | ⟨pre, t, post, c, hl, htc, htm, hval, hpre, hpost⟩
    · obtain ⟨t, ht, hm⟩ := hex
      exact absurd hm (hno t ht)
    · refine ⟨pre, t, post, c, hl, htc, htm, ?_, hpre, hpost⟩
      unfold GetLatestTagFromRepo
      simp only [hval]
  · unfold GetLatestTagFromRepo
    simp only [forEachTag_filter filter tags (none, none) hres]

theorem GetLatestTagFromRepo_latest_witness :
    (∃ pre t post c, sampleTags = pre ++ t :: post ∧ t.commit = .ok c ∧
      IsSubstring "controller" t.Name ∧
      GetLatestTagFromRepo (.ok sampleTags) sampleShort "controller"
        = .ok (sampleShort t.Name, none) ∧
      (∀ u ∈ pre, IsSubstring "controller" u.Name → ∀ cu, u.commit = .ok cu →
        cu.When < c.When) ∧
      (∀ u ∈ post, IsSubstring "controller" u.Name → ∀ cu, u.commit = .ok cu →
        cu.When ≤ c.When)) ∧
    GetLatestTagFromRepo (.ok sampleTags) sampleShort "controller"
      = GetLatestTagFromRepo
          (.ok (sampleTags.filter (fun t => Contains t.Name "controller"))) sampleShort
          "controller" :=
  GetLatestTagFromRepo_latest sampleTags sampleShort "controller"
    (by
      intro t ht
      simp only [sampleTags, List.mem_cons, List.mem_singleton, List.not_mem_nil, or_false] at ht
      rcases ht with rfl | rfl | rfl <;> exact ⟨_, rfl⟩)
    ⟨⟨"refs/tags/controller-v1.9.1", .ok ⟨100⟩⟩, by simp [sampleTags], by decide⟩

theorem GetLatestTagFromRepo_sample :
    GetLatestTagFromRepo (.ok sampleTags) sampleShort "controller"
      = .ok ("controller-v1.9.3", none) := by decide

/-! ## The two continuations of the rebase -/

theorem isContinue_of_isRm (c : Call) (h : IsRm c) : IsContinue c = false := by
  obtain ⟨file, hf⟩ := h
  simp [IsContinue, hf]

theorem isContinue_callOf_continue {σ : Type} (E : Exec σ) (s : Sys σ) :
    IsContinue (callOf E nginxDir "git" ["rebase", "--continue"] s) = true := by
  simp [IsContinue, Call.argv, callOf]

theorem RemoveFiles_rm {σ : Type} (E : Exec σ) (dir : String) (files : List String) :
    ∀ s : Sys σ, ∃ ts : List Call, (RemoveFiles E dir files s).2.trace = s.trace ++ ts ∧
      ∀ c ∈ ts, IsRm c := by
  induction files with
  | nil => intro s; exact ⟨[], by simp [RemoveFiles], by simp⟩
  | cons file files ih =>
    intro s
    have hrm : IsRm (callOf E dir "git" ["rm", file] s) := ⟨file, rfl⟩
    cases hr : (RunCommandInDir E dir "git" ["rm", file] s).1.2 with
    | some err =>
      refine ⟨[callOf E dir "git" ["rm", file] s], ?_, ?_⟩
      · rw [RemoveFiles]
        simp only [hr]
        exact RunCommandInDir_trace E dir "git" ["rm", file] s
      · intro c hc
        simp only [List.mem_singleton] at hc
        subst hc
        exact hrm
    | none =>
      obtain ⟨ts, hts, hall⟩ := ih (RunCommandInDir E dir "git" ["rm", file] s).2
      refine ⟨callOf E dir "git" ["rm", file] s :: ts, ?_, ?_⟩
      · rw [RemoveFiles]
        simp only [hr]
        rw [hts, RunCommandInDir_trace]
        simp
      · intro c hc
        rcases List.mem_cons.mp hc with rfl | hc
        · exact hrm
        · exact hall c hc

theorem rebaseRest_unmatched {σ : Type} (E : Exec σ) (tag : String) (s1 : Sys σ) (e : GoError)
    (he : (RunCommandInDir E nginxDir "git" ["rebase", "--continue"] s1).1.2 = some e)
    (hno : ¬ IsSubstring "Hardened Nginx and S390x changes" e.Error) :
    rebaseRest E tag s1
      = (.ok (some e), (RunCommandInDir E nginxDir "git" ["rebase", "--continue"] s1).2) := by
  have hc : Contains e.Error "Hardened Nginx and S390x changes" = false := by
    rw [← Bool.not_eq_true, contains_iff]; exact hno
  have hm : hardenedCommits[2].Message = "Hardened Nginx and S390x changes" := rfl
  unfold rebaseRest
  simp only [he, hm, hc, Bool.false_eq_true, if_false]

theorem rebaseRest_ok {σ : Type} (E : Exec σ) (tag : String) (s1 : Sys σ)
    (hok : (rebaseRest E tag s1).1 = .ok none) :
    ∃ (mid : List Call) (c2 : Call),
      (rebaseRest E tag s1).2.trace
        = s1.trace ++ (callOf E nginxDir "git" ["rebase", "--continue"] s1 :: (mid ++ [c2])) ∧
      (∀ c ∈ mid, IsRm c) ∧ IsContinue c2 = true ∧ c2.err = none := by
  have h2 := RunCommandInDir_trace E nginxDir "git" ["rebase", "--continue"] s1
  revert hok
  unfold rebaseRest
  generalize RunCommandInDir E nginxDir "git" ["rebase", "--continue"] s1 = r2 at h2
  generalize callOf E nginxDir "git" ["rebase", "--continue"] s1 = call2 at h2
  have hstep2 : ∀ st : Option GoError × Sys σ,
      (∃ ts, st.2.trace = r2.2.trace ++ ts ∧ ∀ c ∈ ts, IsRm c) →
      (match st.1 with
        | some err => ((Except.ok (some err) : Except Panic (Option GoError)), st.2)
        | none =>
          match (RunCommandInDir E nginxDir "git" ["rebase", "--continue"] st.2).1.2 with
          | some err2 => (.ok (some err2),
              (RunCommandInDir E nginxDir "git" ["rebase", "--continue"] st.2).2)
          | none =>
            match getHardenedBranch tag with
            | .error p => (.error p,
                (RunCommandInDir E nginxDir "git" ["rebase", "--continue"] st.2).2)
            | .ok _ => (.ok none,
                (RunCommandInDir E nginxDir "git" ["rebase", "--continue"] st.2).2)).1
        = .ok none →
      ∃ (mid : List Call) (c2 : Call), (match st.1 with
        | some err => ((Except.ok (some err) : Except Panic (Option GoError)), st.2)
        | none =>
          match (RunCommandInDir E nginxDir "git" ["rebase", "--continue"] st.2).1.2 with
          | some err2 => (.ok (some err2),
              (RunCommandInDir E nginxDir "git" ["rebase", "--continue"] st.2).2)
          | none =>
            match getHardenedBranch tag with
            | .error p => (.error p,
                (RunCommandInDir E nginxDir "git" ["rebase", "--continue"] st.2).2)
            | .ok _ => (.ok none,
                (RunCommandInDir E nginxDir "git" ["rebase", "--continue"] st.2).2)).2.trace
        = s1.trace ++ (call2 :: (mid ++ [c2])) ∧
        (∀ c ∈ mid, IsRm c) ∧ IsContinue c2 = true ∧ c2.err = none := by
    rintro ⟨o, s2⟩ ⟨ts, hts, hrm⟩
    have h3 := RunCommandInDir_trace E nginxDir "git" ["rebase", "--continue"] s2
    have herr : (callOf E nginxDir "git" ["rebase", "--continue"] s2).err
        = (RunCommandInDir E nginxDir "git" ["rebase", "--continue"] s2).1.2 := rfl
    have hcont := isContinue_callOf_continue E s2
    generalize callOf E nginxDir "git" ["rebase", "--continue"] s2 = call3 at h3 herr hcont
    generalize RunCommandInDir E nginxDir "git" ["rebase", "--continue"] s2 = r3 at h3 herr
    cases o with
    | some err =>
      intro h
      simp at h
    | none =>
      simp only
      cases hr3 : r3.1.2 with
      | some err2 =>
        intro h
        simp at h
      | none =>
        cases getHardenedBranch tag with
        | error p =>
          intro h
          simp at h
        | ok b =>
          intro _
          refine ⟨ts, call3, ?_, hrm, hcont, herr.trans hr3⟩
          simp only at hts
          simp [h3, hts, h2]
  simp only
  apply hstep2
  split
  · split
    · exact RemoveFiles_rm E nginxDir ["images/nginx/rootfs/Dockerfile"] r2.2
    · exact ⟨[], by simp⟩
  · exact ⟨[], by simp⟩

theorem countP_isContinue_run (first c1 c2 : Call) (mid1 mid2 : List Call)
    (hfirst : IsContinue first = false) (hmid : ∀ c ∈ mid1 ++ mid2, IsRm c)
    (h1 : IsContinue c1 = true) (h2 : IsContinue c2 = true) :
    (first :: (mid1 ++ c1 :: (mid2 ++ [c2]))).countP IsContinue = 2 := by
  have hm1 : mid1.countP IsContinue = 0 := by
    rw [List.countP_eq_zero]
    intro c hc
    rw [isContinue_of_isRm c (hmid c (List.mem_append_left _ hc))]
    simp
  have hm2 : mid2.countP IsContinue = 0 := by
    rw [List.countP_eq_zero]
    intro c hc
    rw [isContinue_of_isRm c (hmid c (List.mem_append_right _ hc))]
    simp
  simp [List.countP_cons, List.countP_append, hfirst, hm1, hm2, h1, h2]

/-- C11: every run of `rebaseUpstream` that returns no error issued, after the
initial `git rebase --onto` command, `git rebase --continue` exactly twice
(with nothing but `git rm` calls around the first one), and the second of them
succeeded, whether or not the initial rebase reported a conflict. When the
initial command succeeds, `git rebase --continue` is still issued next, and
if it fails with a text that does not contain the third entry's message
`Hardened Nginx and S390x changes`, that error is returned. -/
theorem rebaseUpstream_continue_twice {σ : Type} (E : Exec σ) (tag : String) (s : Sys σ) :
    let r1 := RunCommandInDir E nginxDir "git" ["rebase", "--onto", tag, "-Xtheirs", "HEAD~10"] s
    let out := rebaseUpstream E tag s
    (out.1 = .ok none →
      ∃ (mid1 : List Call) (c1 : Call) (mid2 : List Call) (c2 : Call),
        out.2.trace = s.trace ++
          (callOf E nginxDir "git" ["rebase", "--onto", tag, "-Xtheirs", "HEAD~10"] s
            :: (mid1 ++ c1 :: (mid2 ++ [c2]))) ∧
        (∀ c ∈ mid1 ++ mid2, IsRm c) ∧
        IsContinue c1 = true ∧ IsContinue c2 = true ∧ c2.err = none ∧
        (callOf E nginxDir "git" ["rebase", "--onto", tag, "-Xtheirs", "HEAD~10"] s
          :: (mid1 ++ c1 :: (mid2 ++ [c2]))).countP IsContinue = 2) ∧
    (r1.1.2 = none →
      (∃ rest, out.2.trace = r1.2.trace ++
        callOf E nginxDir "git" ["rebase", "--continue"] r1.2 :: rest) ∧
      ∀ e, (RunCommandInDir E nginxDir "git" ["rebase", "--continue"] r1.2).1.2 = some e →
        ¬ IsSubstring hardenedCommits[2].Message e.Error →
        out = (.ok (some e),
          (RunCommandInDir E nginxDir "git" ["rebase", "--continue"] r1.2).2)) ∧
    hardenedCommits[2].Message = "Hardened Nginx and S390x changes" := by
  intro r1 out
  have htr1 : r1.2.trace = s.trace ++
      [callOf E nginxDir "git" ["rebase", "--onto", tag, "-Xtheirs", "HEAD~10"] s] :=
    RunCommandInDir_trace _ _ _ _ _
  have hfirst : IsContinue
      (callOf E nginxDir "git" ["rebase", "--onto", tag, "-Xtheirs", "HEAD~10"] s) = false := by
    simp [IsContinue, Call.argv, callOf]
  refine ⟨?_, ?_, rfl⟩
  · intro hok
    cases he : r1.1.2 with
    | none =>
      have hout : out = rebaseRest E tag r1.2 := rebaseUpstream_clean E tag s he
      rw [hout] at hok ⊢
      obtain ⟨mid, c2, htr, hmid, hc2, herr⟩ := rebaseRest_ok E tag r1.2 hok
      refine ⟨[], callOf E nginxDir "git" ["rebase", "--continue"] r1.2, mid, c2, ?_,
        by simpa using hmid, isContinue_callOf_continue E r1.2, hc2, herr, ?_⟩
      · rw [htr, htr1]; simp
      · exact countP_isContinue_run _ _ _ [] mid hfirst (by simpa using hmid)
          (isContinue_callOf_continue E r1.2) hc2
    | some e =>
      by_cases hyes : IsSubstring "Adding drone and build artifacts" e.Error
      · have hout := rebaseUpstream_matched E tag s e he hyes
        obtain ⟨ts, hts, hrm⟩ := RemoveFiles_rm E nginxDir
          [".github/workflows/ci.yaml", ".github/workflows/depreview.yaml"] r1.2
        generalize RemoveFiles E nginxDir
          [".github/workflows/ci.yaml", ".github/workflows/depreview.yaml"] r1.2 = a
          at hout hts
        have hout' : out = match a.1 with
            | some err => (.ok (some err), a.2)
            | none => rebaseRest E tag a.2 := hout
        cases ha : a.1 with
        | some err =>
          rw [hout', ha] at hok
          simp at hok
        | none =>
          have hout2 : out = rebaseRest E tag a.2 := by rw [hout', ha]
          rw [hout2] at hok ⊢
          obtain ⟨mid, c2, htr, hmid, hc2, herr⟩ := rebaseRest_ok E tag a.2 hok
          have hall : ∀ c ∈ ts ++ mid, IsRm c := by
            intro c hc
            rcases List.mem_append.mp hc with hc | hc
            · exact hrm c hc
            · exact hmid c hc
          refine ⟨ts, callOf E nginxDir "git" ["rebase", "--continue"] a.2, mid, c2, ?_,
            hall, isContinue_callOf_continue E a.2, hc2, herr, ?_⟩
          · rw [htr, hts, htr1]; simp
          · exact countP_isContinue_run _ _ _ ts mid hfirst hall
              (isContinue_callOf_continue E a.2) hc2
      · have hout : out = (.ok (some e), r1.2) := rebaseUpstream_unmatched E tag s e he hyes
        rw [hout] at hok
        simp at hok
  · intro he
    have hout : out = rebaseRest E tag r1.2 := rebaseUpstream_clean E tag s he
    refine ⟨?_, ?_⟩
    · rw [hout]
      exact rebaseRest_trace E tag r1.2
    · intro e hce hno
      rw [hout]
      exact rebaseRest_unmatched E tag r1.2 e hce hno

set_option maxRecDepth 100000 in
theorem rebaseUpstream_continue_twice_witness :
    (rebaseUpstream (scriptExec allSucceed) "v1.9.3" ⟨(), []⟩).1 = .ok none ∧
    (rebaseUpstream (scriptExec allSucceed) "v1.9.3" ⟨(), []⟩).2.trace.map Call.argv
      = [["git", "rebase", "--onto", "v1.9.3", "-Xtheirs", "HEAD~10"],
         ["git", "rebase", "--continue"],
         ["git", "rebase", "--continue"]] ∧
    ∃ (mid1 : List Call) (c1 : Call) (mid2 : List Call) (c2 : Call),
      (rebaseUpstream (scriptExec allSucceed) "v1.9.3" ⟨(), []⟩).2.trace = [] ++
        (callOf (scriptExec allSucceed) nginxDir "git"
            ["rebase", "--onto", "v1.9.3", "-Xtheirs", "HEAD~10"] ⟨(), []⟩
          :: (mid1 ++ c1 :: (mid2 ++ [c2]))) ∧
      (∀ c ∈ mid1 ++ mid2, IsRm c) ∧
      IsContinue c1 = true ∧ IsContinue c2 = true ∧ c2.err = none ∧
      (callOf (scriptExec allSucceed) nginxDir "git"
          ["rebase", "--onto", "v1.9.3", "-Xtheirs", "HEAD~10"] ⟨(), []⟩
        :: (mid1 ++ c1 :: (mid2 ++ [c2]))).countP IsContinue = 2 :=
  ⟨by decide, by decide,
    (rebaseUpstream_continue_twice (scriptExec allSucceed) "v1.9.3" ⟨(), []⟩).1 (by decide)⟩

end HardenedNginx
